import Mathlib

/-!
# Verification of the sensitive-data detection core

Shallow embedding of the pure core of `app/backend/scripts/myregex.py` and
`app/backend/scripts/ocr.py` (normalizers, scorers, matchers, line clusterer,
entity locator), together with theorems settling the specification claims.

Modelling conventions:
* Python strings are `List Char` (`Str`), restricted to the ASCII semantics the
  data uses: `\d`, `\w`, `\s`, `str.upper`, `str.isdigit` are modelled on their
  ASCII ranges.
* Python floats are modelled as exact rationals `ℚ`; all score constants are
  decimal literals, and the code only adds/compares/divides them.
* `re.sub`/`re.match`/`finditer` on the program's concrete patterns are
  translated into explicit scanners with the same leftmost/greedy semantics;
  each scanner documents the pattern it implements.
-/

set_option maxHeartbeats 1000000
set_option linter.unusedVariables false

namespace SDV

/-- Python strings, as lists of characters. -/
abbrev Str := List Char

/-- ASCII whitespace recognised by Python's `\s` and `str.strip()`. -/
def isSpaceC (c : Char) : Bool :=
  c = ' ' || c = '\t' || c = '\n' || c = '\x0b' || c = '\x0c' || c = '\r'

/-- ASCII decimal digit (`\d`, `str.isdigit` on ASCII data). -/
def isDigitC (c : Char) : Bool := '0' ≤ c && c ≤ '9'

/-- ASCII uppercase letter (`[A-Z]`). -/
def isUpperC (c : Char) : Bool := 'A' ≤ c && c ≤ 'Z'

/-- ASCII lowercase letter (`[a-z]`). -/
def isLowerC (c : Char) : Bool := 'a' ≤ c && c ≤ 'z'

/-- ASCII letter (`[A-Za-z]`). -/
def isAlphaC (c : Char) : Bool := isUpperC c || isLowerC c

/-- ASCII letter or digit. -/
def isAlnumC (c : Char) : Bool := isAlphaC c || isDigitC c

/-- Python's `\w` on ASCII: letters, digits, underscore. -/
def isWordC (c : Char) : Bool := isAlnumC c || c = '_'

/-- `str.upper` on one ASCII character. -/
def upperChar (c : Char) : Char :=
  if isLowerC c then Char.ofNat (c.toNat - 32) else c

/-- `normalize_spaces`, step 1: `replace("\t"," ").replace("\r"," ").replace("\n"," ")`. -/
def tabsToSpaces (l : Str) : Str :=
  l.map (fun c => if c = '\t' || c = '\r' || c = '\n' then ' ' else c)

/-- One round of `text.replace("  ", " ")`: replace non-overlapping double
spaces left to right. -/
def replaceDouble : Str → Str
  | [] => []
  | [c] => [c]
  | c1 :: c2 :: rest =>
    if c1 = ' ' ∧ c2 = ' ' then ' ' :: replaceDouble rest
    else c1 :: replaceDouble (c2 :: rest)

/-- `"  " in text`. -/
def hasDouble : Str → Bool
  | c1 :: c2 :: rest => (c1 = ' ' && c2 = ' ') || hasDouble (c2 :: rest)
  | _ => false

theorem replaceDouble_length_le (l : Str) : (replaceDouble l).length ≤ l.length := by
  induction l using replaceDouble.induct with
  | case1 => simp [replaceDouble]
  | case2 c => simp [replaceDouble]
  | case3 c1 c2 rest hc ih =>
    simp only [replaceDouble, if_pos hc, List.length_cons]
    omega
  | case4 c1 c2 rest hc ih =>
    simp only [replaceDouble, if_neg hc, List.length_cons]
    simp only [List.length_cons] at ih
    omega

theorem replaceDouble_length_lt (l : Str) (h : hasDouble l = true) :
    (replaceDouble l).length < l.length := by
  induction l using replaceDouble.induct with
  | case1 => simp [hasDouble] at h
  | case2 c => simp [hasDouble] at h
  | case3 c1 c2 rest hc ih =>
    have := replaceDouble_length_le rest
    simp only [replaceDouble, if_pos hc, List.length_cons]
    omega
  | case4 c1 c2 rest hc ih =>
    simp only [hasDouble, Bool.or_eq_true, Bool.and_eq_true, decide_eq_true_eq] at h
    rcases h with h | h
    · exact absurd h hc
    · have := ih h
      simp only [replaceDouble, if_neg hc, List.length_cons]
      simp only [List.length_cons] at this
      omega

/-- The loop `while "  " in text: text = text.replace("  ", " ")`, written
with an explicit iteration bound so that it is structurally recursive (each
replacement strictly shrinks the string, so `l.length` rounds always
suffice; `collapseSpaces_eq` below recovers the loop's own unfolding). -/
def collapseSpacesGo : ℕ → Str → Str
  | 0, l => l
  | n + 1, l => if hasDouble l then collapseSpacesGo n (replaceDouble l) else l

def collapseSpaces (l : Str) : Str := collapseSpacesGo l.length l

theorem collapseSpacesGo_congr : ∀ (n m : ℕ) (l : Str), l.length ≤ n → l.length ≤ m →
    collapseSpacesGo n l = collapseSpacesGo m l := by
  intro n
  induction n with
  | zero =>
    intro m l hn _
    have hl : l = [] := by
      cases l with
      | nil => rfl
      | cons c rest => simp at hn
    subst hl
    cases m with
    | zero => rfl
    | succ m' => simp [collapseSpacesGo, hasDouble]
  | succ n' ih =>
    intro m l hn hm
    cases m with
    | zero =>
      have hl : l = [] := by
        cases l with
        | nil => rfl
        | cons c rest => simp at hm
      subst hl
      simp [collapseSpacesGo, hasDouble]
    | succ m' =>
      simp only [collapseSpacesGo]
      cases hd : hasDouble l with
      | false => rfl
      | true =>
        simp only [if_true]
        have hlt := replaceDouble_length_lt l hd
        exact ih m' (replaceDouble l) (by omega) (by omega)

/-- The original loop equation of `collapseSpaces`. -/
theorem collapseSpaces_eq (l : Str) :
    collapseSpaces l = if hasDouble l then collapseSpaces (replaceDouble l) else l := by
  unfold collapseSpaces
  cases hl : l with
  | nil => rfl
  | cons c rest =>
    simp only [List.length_cons, collapseSpacesGo]
    cases hd : hasDouble (c :: rest) with
    | false => rfl
    | true =>
      simp only [if_true]
      have hlt := replaceDouble_length_lt (c :: rest) hd
      exact collapseSpacesGo_congr _ _ _ (by simp only [List.length_cons] at hlt ⊢; omega)
        (le_refl _)

/-- `str.strip()`: drop whitespace from both ends. -/
def stripEnds (l : Str) : Str :=
  ((l.dropWhile isSpaceC).reverse.dropWhile isSpaceC).reverse

/-- `normalize_spaces(text)`. -/
def normalize_spaces (l : Str) : Str :=
  stripEnds (collapseSpaces (tabsToSpaces l))

/-- Semantics of `re.sub(r"\s*X\s*", "X", text)` for a one-character class `X`
(given by `p`): every maximal whitespace run adjacent to a `p`-character is
deleted; the `p`-characters themselves are kept.  This is exactly what the
regex substitution does on such patterns (each match is a `p`-character with
its greedy surrounding whitespace; chained matches share the run between two
`p`-characters). -/
def headP (p : Char → Bool) (l : Str) : Bool :=
  match l.head? with
  | some d => p d
  | none => false

def subAround (p : Char → Bool) : Str → Str
  | [] => []
  | c :: rest =>
    let r := subAround p rest
    if p c then c :: r.dropWhile isSpaceC
    else if isSpaceC c && headP p r then r
    else c :: r

/-- `[A-Za-z0-9._%+-]` - the local-part class of `EMAIL_REGEX` (case folded). -/
def isLocalC (c : Char) : Bool :=
  isAlnumC c || c = '.' || c = '_' || c = '%' || c = '+' || c = '-'

/-- `[A-Za-z0-9.-]` - the domain class of `EMAIL_REGEX` (case folded). -/
def isDomainC (c : Char) : Bool := isAlnumC c || c = '.' || c = '-'

/-- The suffix check for `re.sub(r"([A-Za-z0-9._%+-]+)@([A-Za-z0-9.-]+)_([A-Za-z]{2,})$", ...)`
after an `@`: a nonempty `[A-Za-z0-9.-]+` run, then `_`, then at least two
letters reaching the end of the string.  Returns the run length on success. -/
def emailFixCheck (after : Str) : Option ℕ :=
  let run := after.takeWhile isDomainC
  match after.dropWhile isDomainC with
  | u :: tl =>
    if run ≠ [] ∧ u = '_' ∧ tl.all isAlphaC ∧ 2 ≤ tl.length then some run.length
    else none
  | [] => none

/-- Scan for the (unique) `@` whose suffix matches the rewrite pattern; returns
the absolute index of the `_` to be rewritten to `.`.  The pattern requires a
nonempty group-1 (`[A-Za-z0-9._%+-]+`) before the `@`. -/
def emailFixFrom : Str → Option Char → ℕ → Option ℕ
  | [], _, _ => none
  | c :: rest, back, i =>
    if c = '@' && (match back with | some d => isLocalC d | none => false) then
      match emailFixCheck rest with
      | some rl => some (i + 1 + rl)
      | none => emailFixFrom rest (some c) (i + 1)
    else emailFixFrom rest (some c) (i + 1)

/-- The `re.sub(..._([A-Za-z]{2,})$...)` rewrite in `normalize_email`: the
replacement template `\1@\2.\3` keeps every character except the matched `_`,
which becomes `.`; so the substitution is exactly "set that index to `.`". -/
def emailSuffixFix (l : Str) : Str :=
  match emailFixFrom l none 0 with
  | some i => l.set i '.'
  | none => l

/-- The single-character class of each collapse pass of `normalize_email`. -/
def isAtC (c : Char) : Bool := c = '@'

def isDotC (c : Char) : Bool := c = '.'

def isUndC (c : Char) : Bool := c = '_'

/-- `normalize_email(text)`. -/
def normalize_email (l : Str) : Str :=
  emailSuffixFix (subAround isUndC
    (subAround isDotC
      (subAround isAtC (normalize_spaces l))))

/-- Separator class of the date patterns: `.`, `/`, `-`. -/
def isDateSepC (c : Char) : Bool := c = '.' || c = '/' || c = '-'

/-- `normalize_date_token(text)`: `normalize_spaces`, then delete whitespace
around each date separator (the `re.sub` keeping the separator itself). -/
def normalize_date_token (l : Str) : Str :=
  subAround isDateSepC (normalize_spaces l)

/-- `re.sub(r"\s+", " ", text)`: collapse every maximal whitespace run to one
space.  Written with an explicit recursion bound (each step strictly shortens
the string, so `l.length` rounds suffice; `collapseWsRuns_cons` recovers the
natural unfolding). -/
def collapseWsRunsGo : ℕ → Str → Str
  | _, [] => []
  | 0, _ :: _ => []
  | n + 1, c :: rest =>
    if isSpaceC c then ' ' :: collapseWsRunsGo n (rest.dropWhile isSpaceC)
    else c :: collapseWsRunsGo n rest

def collapseWsRuns (l : Str) : Str := collapseWsRunsGo l.length l

theorem collapseWsRunsGo_congr : ∀ (n m : ℕ) (l : Str), l.length ≤ n → l.length ≤ m →
    collapseWsRunsGo n l = collapseWsRunsGo m l := by
  intro n
  induction n with
  | zero =>
    intro m l hn _
    cases l with
    | nil => cases m <;> rfl
    | cons c rest => simp at hn
  | succ n' ih =>
    intro m l hn hm
    cases l with
    | nil => cases m <;> rfl
    | cons c rest =>
      cases m with
      | zero => simp at hm
      | succ m' =>
        simp only [collapseWsRunsGo]
        have hdw := (List.dropWhile_suffix (l := rest) isSpaceC).length_le
        simp only [List.length_cons] at hn hm
        cases hc : isSpaceC c with
        | true =>
          simp only [if_true]
          rw [ih m' (rest.dropWhile isSpaceC) (by omega) (by omega)]
        | false =>
          simp only [Bool.false_eq_true, if_false]
          rw [ih m' rest (by omega) (by omega)]

/-- The natural unfolding of `collapseWsRuns` on a nonempty string. -/
theorem collapseWsRuns_cons (c : Char) (rest : Str) :
    collapseWsRuns (c :: rest)
      = if isSpaceC c then ' ' :: collapseWsRuns (rest.dropWhile isSpaceC)
        else c :: collapseWsRuns rest := by
  unfold collapseWsRuns
  simp only [List.length_cons, collapseWsRunsGo]
  have hdw := (List.dropWhile_suffix (l := rest) isSpaceC).length_le
  cases hc : isSpaceC c with
  | true =>
    simp only [if_true]
    rw [collapseWsRunsGo_congr rest.length (rest.dropWhile isSpaceC).length
      (rest.dropWhile isSpaceC) (by omega) (le_refl _)]
  | false =>
    simp only [Bool.false_eq_true, if_false]

/-- Loop induction matching the recursion pattern of `collapseWsRuns`. -/
theorem collapseWsRuns_ind {P : Str → Prop}
    (case1 : P [])
    (case2 : ∀ c rest, isSpaceC c = true → P (rest.dropWhile isSpaceC) → P (c :: rest))
    (case3 : ∀ c rest, ¬ isSpaceC c = true → P rest → P (c :: rest)) (l : Str) : P l := by
  have H : ∀ (n : ℕ) (l : Str), l.length ≤ n → P l := by
    intro n
    induction n with
    | zero =>
      intro l hl
      cases l with
      | nil => exact case1
      | cons c rest => simp at hl
    | succ n' ih =>
      intro l hl
      cases l with
      | nil => exact case1
      | cons c rest =>
        have hdw := (List.dropWhile_suffix (l := rest) isSpaceC).length_le
        simp only [List.length_cons] at hl
        cases hc : isSpaceC c with
        | true => exact case2 c rest hc (ih _ (by omega))
        | false => exact case3 c rest (by simp [hc]) (ih _ (by omega))
  exact H l.length l (le_refl _)

/-- `normalize_phone(text)`. -/
def normalize_phone (l : Str) : Str :=
  collapseWsRuns (normalize_spaces l)

/-- `normalize_iban(text)`: uppercase, strip all whitespace, then replace `O`
by `0` inside the two check-digit positions (indices 2 and 3) only. -/
def normalize_iban (l : Str) : Str :=
  let cleaned := (l.map upperChar).filter (fun c => !isSpaceC c)
  if 4 ≤ cleaned.length then
    let cd := (cleaned.drop 2).take 2
    if 'O' ∈ cd then
      cleaned.take 2 ++ cd.map (fun c => if c = 'O' then '0' else c) ++ cleaned.drop 4
    else cleaned
  else cleaned

/-- `digits_only(text)`: `re.sub(r"\D", "", text)`. -/
def digits_only (l : Str) : Str := l.filter isDigitC

/-- `clamp_score(value)`. -/
def clamp_score (v : ℚ) : ℚ := max 0 (min 1 v)

/-! ## Edit distance (`edit_distance`) -/

/-- One row-extension step of the Levenshtein dynamic program: given the
previous row aligned at column `j-1` and the value `left` of the current row at
column `j-1`, produce the current row's entries from column `j` on.  Cell
formula: `min(deletion, insertion, substitution)` as in the source. -/
def rowStep (c : Char) : Str → List ℕ → ℕ → List ℕ
  | [], _, _ => []
  | _ :: _, [], _ => []
  | bj :: brest, pDiag :: pRest, left =>
    let up := pRest.headD 0
    let cost := if c = bj then 0 else 1
    let v := min (up + 1) (min (left + 1) (pDiag + cost))
    v :: rowStep c brest pRest v

/-- Fold the DP rows over the characters of `a` (row index `i` is the value of
`dp[i][0]`). -/
def edRows (b : Str) : Str → ℕ → List ℕ → List ℕ
  | [], _, back => back
  | c :: rest, i, back => edRows b rest (i + 1) (i :: rowStep c b back i)

/-- `edit_distance(a, b)` - Levenshtein distance with the source's early
returns; the final answer is `dp[-1][-1]`. -/
def edit_distance (a b : Str) : ℕ :=
  if a = b then 0
  else if a = [] then b.length
  else if b = [] then a.length
  else (edRows b a 1 (List.range (b.length + 1))).getLastD 0

/-! ## Email grammar and repair candidates -/

/-- `EMAIL_REGEX = ^[A-Z0-9._%+-]+@[A-Z0-9.-]+\.[A-Z]{2,}$` with `IGNORECASE`,
as a whole-string match: a nonempty local part (which stops at the first `@`
since `@` is outside its class), an `@`, then a domain that decomposes at its
last dot into a nonempty `[A-Za-z0-9.-]+` part and a final run of at least two
letters. -/
def email_regex_match (l : Str) : Bool :=
  let loc := l.takeWhile (fun c => c ≠ '@')
  match l.dropWhile (fun c => c ≠ '@') with
  | [] => false
  | _ :: domain =>
    let revT := domain.reverse.takeWhile (fun c => c ≠ '.')
    match domain.reverse.dropWhile (fun c => c ≠ '.') with
    | [] => false
    | _ :: revP =>
      !loc.isEmpty && loc.all isLocalC && !revP.isEmpty && revP.all isDomainC
        && revT.all isAlphaC && decide (2 ≤ revT.length)

/-- `COMMON_TLDS`. -/
def COMMON_TLDS : List Str :=
  ["com".data, "net".data, "org".data, "de".data, "at".data, "ch".data,
   "fr".data, "es".data, "it".data, "nl".data, "be".data, "uk".data,
   "co".data, "edu".data, "gov".data, "info".data, "io".data]

/-- `_add_email_candidate`: add to the (set-modelled-as-duplicate-free-list)
candidate collection when the strict grammar accepts. -/
def add_email_candidate (cands : List Str) (cand : Str) : List Str :=
  if email_regex_match cand && !cands.contains cand then cands ++ [cand]
  else cands

/-- `_add_domain_fixes(candidates, local, domain)`. -/
def add_domain_fixes (cands : List Str) (loc domain : Str) : List Str :=
  if loc = [] ∨ domain = [] then cands
  else if '.' ∈ domain then add_email_candidate cands (loc ++ '@' :: domain)
  else
    let withDots := (List.range' 1 (domain.length - 1)).foldl
      (fun acc i => add_email_candidate acc
        (loc ++ '@' :: (domain.take i ++ '.' :: domain.drop i))) cands
    COMMON_TLDS.foldl
      (fun acc t => add_email_candidate acc (loc ++ '@' :: (domain ++ '.' :: t)))
      withDots

/-- The underscore variants tried by `email_candidates` for a given split. -/
def add_fixes_with_underscores (cands : List Str) (loc domain : Str) : List Str :=
  let c1 := add_domain_fixes cands loc domain
  if '_' ∈ domain then
    let c2 := add_domain_fixes c1 loc
      (domain.map (fun c => if c = '_' then '.' else c))
    add_domain_fixes c2 loc (domain.filter (fun c => c ≠ '_'))
  else c1

/-- `email_candidates(text)`: Python's `set` is modelled as the insertion-order
duplicate-free list (the only consumer takes a maximum over it, which is
order-insensitive). -/
def email_candidates (text : Str) : List Str :=
  let cands := add_email_candidate [] text
  if '@' ∈ text then
    let loc := text.takeWhile (fun c => c ≠ '@')
    let domain := (text.dropWhile (fun c => c ≠ '@')).tail
    add_fixes_with_underscores cands loc domain
  else
    (List.range' 1 (text.length - 1)).foldl
      (fun acc i => add_fixes_with_underscores acc (text.take i) (text.drop i))
      cands

/-- `score_email(text)`. -/
def score_email (text : Str) : Bool × ℚ :=
  let cleaned := normalize_email text
  if email_regex_match cleaned then (true, 1)
  else
    let cands := email_candidates cleaned
    if cands = [] then (false, 0)
    else
      let best := cands.foldl
        (fun best c =>
          let edits : ℚ := (edit_distance cleaned c : ℕ)
          let denom : ℚ := (max c.length 1 : ℕ)
          let s := 1 - edits / denom
          if best < s then s else best) 0
      (false, clamp_score best)

/-! ## IBAN grammar, checksum, score -/

/-- `IBAN_REGEX = ^[A-Z]{2}\d{2}[A-Z0-9]{11,30}$` as a whole-string match:
total length 15 to 34 with the positional classes. -/
def iban_regex_match (l : Str) : Bool :=
  decide (15 ≤ l.length) && decide (l.length ≤ 34)
    && (l.take 2).all isUpperC && ((l.drop 2).take 2).all isDigitC
    && (l.drop 4).all (fun c => isUpperC c || isDigitC c)

/-- `iban_checksum_ok(iban)`: re-normalize, require the strict format, move the
first four characters to the end, expand letters as `ord(ch) - 55` in decimal,
and reduce the digit string modulo 97 incrementally. -/
def iban_checksum_ok (iban : Str) : Bool :=
  let ib := normalize_iban iban
  if !iban_regex_match ib then false
  else
    let rearranged := ib.drop 4 ++ ib.take 4
    let converted := rearranged.foldl
      (fun acc c =>
        if isDigitC c then acc ++ [c] else acc ++ Nat.toDigits 10 (c.toNat - 55))
      []
    let remainder := converted.foldl (fun r c => (r * 10 + (c.toNat - 48)) % 97) 0
    remainder == 1

/-- `score_iban(text)`. -/
def score_iban (text : Str) : Bool × ℚ :=
  let cleaned := normalize_iban text
  if iban_regex_match cleaned then
    (true, if iban_checksum_ok cleaned then 1 else 7/10)
  else
    let s1 : ℚ := if (cleaned.take 2).length = 2 ∧ (cleaned.take 2).all isUpperC then 3/10 else 0
    let s2 : ℚ := if 4 ≤ cleaned.length ∧ (cleaned.take 2).all isUpperC
        ∧ ((cleaned.drop 2).take 2).all isDigitC then 2/10 else 0
    let s3 : ℚ := if 12 ≤ cleaned.length ∧ cleaned.length ≤ 34 then 2/10 else 0
    let s4 : ℚ := if cleaned ≠ [] ∧ cleaned.all (fun c => isUpperC c || isDigitC c) then 2/10 else 0
    let s5 : ℚ := if 15 ≤ cleaned.length then 1/10 else 0
    (false, clamp_score (s1 + s2 + s3 + s4 + s5))

/-! ## Phone grammar and score -/

/-- Body class of `PHONE_REGEX`: digits, whitespace, parentheses, dot, dash. -/
def isPhoneBodyC (c : Char) : Bool :=
  isDigitC c || isSpaceC c || c = '(' || c = ')' || c = '.' || c = '-'

/-- `PHONE_REGEX = ^(?:\+|0)[0-9][0-9\s().-]{5,}$` as a whole-string match. -/
def phone_regex_match (l : Str) : Bool :=
  match l with
  | c :: d :: rest =>
    (c = '+' || c = '0') && isDigitC d && decide (5 ≤ rest.length)
      && rest.all isPhoneBodyC
  | _ => false

/-- `score_phone(text)`. -/
def score_phone (text : Str) : Bool × ℚ :=
  let cleaned := normalize_phone text
  if phone_regex_match cleaned then
    let dc := (digits_only cleaned).length
    if 7 ≤ dc ∧ dc ≤ 15 then (true, 1) else (true, 8/10)
  else
    let dc := (digits_only cleaned).length
    let s1 : ℚ := if 7 ≤ dc then 4/10 else 0
    let s2 : ℚ := if dc ≤ 15 then 2/10 else 0
    let s3 : ℚ := if cleaned.any (fun c => c = '+' || c = '(' || c = ')' || c = '-' || isSpaceC c)
        then 2/10 else 0
    let s4 : ℚ := if (match cleaned with
        | c :: rest => isDigitC c || (c = '+' && headP isDigitC rest)
        | [] => false) then 2/10 else 0
    (false, clamp_score (s1 + s2 + s3 + s4))

/-! ## Date grammar and score -/

/-- Day alternation `0?[1-9]|[12][0-9]|3[01]` as a whole-group match (the
group always covers a maximal digit run, the separator after it being a
non-digit). -/
def isDayStr (d : Str) : Bool :=
  match d with
  | [c] => '1' ≤ c && c ≤ '9'
  | [c1, c2] =>
    (c1 = '0' && '1' ≤ c2 && c2 ≤ '9')
      || ((c1 = '1' || c1 = '2') && isDigitC c2)
      || (c1 = '3' && (c2 = '0' || c2 = '1'))
  | _ => false

/-- Month alternation `0?[1-9]|1[0-2]` as a whole-group match. -/
def isMonthStr (d : Str) : Bool :=
  match d with
  | [c] => '1' ≤ c && c ≤ '9'
  | [c1, c2] =>
    (c1 = '0' && '1' ≤ c2 && c2 ≤ '9')
      || (c1 = '1' && (c2 = '0' || c2 = '1' || c2 = '2'))
  | _ => false

/-- Decimal value of a digit string (Python `int`). -/
def strToNat (d : Str) : ℕ := d.foldl (fun a c => a * 10 + (c.toNat - 48)) 0

/-- Split a string of the exact shape `digits sep digits sep digits` (the
shape common to both `DATE_REGEXES`, whose groups are maximal digit runs
separated by single separator characters).  Returns the three digit runs. -/
def splitDateShape (l : Str) : Option (Str × Str × Str) :=
  let d1 := l.takeWhile isDigitC
  match l.dropWhile isDigitC with
  | s1 :: r2 =>
    if isDateSepC s1 then
      let d2 := r2.takeWhile isDigitC
      match r2.dropWhile isDigitC with
      | s2 :: r4 =>
        if isDateSepC s2 then
          if d1 ≠ [] ∧ d2 ≠ [] ∧ r4 ≠ [] ∧ r4.all isDigitC then some (d1, d2, r4)
          else none
        else none
      | [] => none
    else none
  | [] => none

/-- `DATE_REGEXES[0]` (`^(day)[sep](month)[sep](\d{2}|\d{4})$`) as a
whole-string match, returning the groups. -/
def dateRegex1Groups (l : Str) : Option (Str × Str × Str) :=
  match splitDateShape l with
  | some (d1, d2, d3) =>
    if isDayStr d1 && isMonthStr d2 && (d3.length = 2 || d3.length = 4) then
      some (d1, d2, d3)
    else none
  | none => none

/-- `DATE_REGEXES[1]` (`^(\d{4})[sep](month)[sep](day)$`) as a whole-string
match, returning the groups. -/
def dateRegex2Groups (l : Str) : Option (Str × Str × Str) :=
  match splitDateShape l with
  | some (d1, d2, d3) =>
    if d1.length = 4 && isMonthStr d2 && isDayStr d3 then some (d1, d2, d3)
    else none
  | none => none

theorem dropWhile_cons_length_lt (p : Char → Bool) (c : Char) (rest : Str)
    (h : p c = true) : ((c :: rest).dropWhile p).length < (c :: rest).length := by
  have := (List.dropWhile_suffix (l := rest) p).length_le
  simp only [List.dropWhile_cons, if_pos h, List.length_cons]
  omega

/-- Maximal digit runs of a string (`re.findall(r"\d+", s)`), with an explicit
recursion bound (`l.length` steps always suffice; `digitRuns_cons` below
recovers the natural unfolding). -/
def digitRunsGo : ℕ → Str → List Str
  | _, [] => []
  | 0, _ :: _ => []
  | n + 1, c :: rest =>
    if isDigitC c then
      ((c :: rest).takeWhile isDigitC) :: digitRunsGo n ((c :: rest).dropWhile isDigitC)
    else digitRunsGo n rest

def digitRuns (l : Str) : List Str := digitRunsGo l.length l

theorem digitRunsGo_congr : ∀ (n m : ℕ) (l : Str), l.length ≤ n → l.length ≤ m →
    digitRunsGo n l = digitRunsGo m l := by
  intro n
  induction n with
  | zero =>
    intro m l hn _
    cases l with
    | nil => cases m <;> rfl
    | cons c rest => simp at hn
  | succ n' ih =>
    intro m l hn hm
    cases l with
    | nil => cases m <;> rfl
    | cons c rest =>
      cases m with
      | zero => simp at hm
      | succ m' =>
        simp only [digitRunsGo]
        simp only [List.length_cons] at hn hm
        cases hc : isDigitC c with
        | true =>
          simp only [if_true]
          have hlt : ((c :: rest).dropWhile isDigitC).length < rest.length + 1 :=
            dropWhile_cons_length_lt isDigitC c rest hc
          rw [ih m' ((c :: rest).dropWhile isDigitC) (by omega) (by omega)]
        | false =>
          simp only [Bool.false_eq_true, if_false]
          rw [ih m' rest (by omega) (by omega)]

/-- The natural unfolding of `digitRuns` on a nonempty string. -/
theorem digitRuns_cons (c : Char) (rest : Str) :
    digitRuns (c :: rest)
      = if isDigitC c then
          ((c :: rest).takeWhile isDigitC) :: digitRuns ((c :: rest).dropWhile isDigitC)
        else digitRuns rest := by
  unfold digitRuns
  simp only [List.length_cons, digitRunsGo]
  cases hc : isDigitC c with
  | true =>
    simp only [if_true]
    have hlt : ((c :: rest).dropWhile isDigitC).length < rest.length + 1 :=
      dropWhile_cons_length_lt isDigitC c rest hc
    rw [digitRunsGo_congr rest.length ((c :: rest).dropWhile isDigitC).length
      ((c :: rest).dropWhile isDigitC) (by omega) (le_refl _)]
  | false =>
    simp only [Bool.false_eq_true, if_false]

/-- `re.search(r"\d{1,4}[sep]\d{1,2}[sep]\d{1,4}", s)` (`sep` the date
separators): some suffix starts with a digit run of length 1-4, a separator, a
digit run of length 1-2, a separator, and at least one digit. -/
def hasDateShapeSub (l : Str) : Bool :=
  l.tails.any fun t =>
    let r1 := t.takeWhile isDigitC
    (1 ≤ r1.length && r1.length ≤ 4)
      && (match t.dropWhile isDigitC with
        | s1 :: t2 =>
          isDateSepC s1
            && (let r2 := t2.takeWhile isDigitC
              (1 ≤ r2.length && r2.length ≤ 2)
                && (match t2.dropWhile isDigitC with
                  | s2 :: t4 => isDateSepC s2 && headP isDigitC t4
                  | [] => false))
        | [] => false)

/-- `score_date(text)`. -/
def score_date (text : Str) : Bool × ℚ :=
  let cleaned := normalize_spaces text
  match dateRegex1Groups cleaned with
  | some (d1, d2, d3) =>
    let day := strToNat d1
    let month := strToNat d2
    let year := strToNat d3
    if 1 ≤ month ∧ month ≤ 12 ∧ 1 ≤ day ∧ day ≤ 31 ∧ 1900 ≤ year ∧ year ≤ 2100
    then (true, 1) else (true, 85/100)
  | none =>
    match dateRegex2Groups cleaned with
    | some (d1, d2, d3) =>
      let year := strToNat d1
      let month := strToNat d2
      let day := strToNat d3
      if 1 ≤ month ∧ month ≤ 12 ∧ 1 ≤ day ∧ day ≤ 31 ∧ 1900 ≤ year ∧ year ≤ 2100
      then (true, 1) else (true, 85/100)
    | none =>
      let s1 : ℚ := if hasDateShapeSub cleaned then 4/10 else 0
      let s2 : ℚ := if cleaned.any isDateSepC then 2/10 else 0
      let runs := digitRuns cleaned
      let s3 : ℚ := if 3 ≤ runs.length then 2/10 else 0
      let s4 : ℚ := if runs.any (fun n => n.length = 4) then 2/10 else 0
      (false, clamp_score (s1 + s2 + s3 + s4))

/-! ## Dispatchers and validity checks -/

/-- The closed entity-type enumeration (`"date" | "iban" | "phone" | "email"`;
the source's fall-through branch for unknown type strings is unreachable on
this closed set and is not modelled). -/
inductive EntityType where
  | date | iban | phone | email
deriving DecidableEq, Repr

/-- Per-type normalizer dispatch, as used by `find_matches_for_type`. -/
def normalize_entity : EntityType → Str → Str
  | .date => normalize_date_token
  | .iban => normalize_iban
  | .phone => normalize_phone
  | .email => normalize_email

/-- `score_entity(entity_type, text)`. -/
def score_entity : EntityType → Str → Bool × ℚ
  | .date => score_date
  | .iban => score_iban
  | .phone => score_phone
  | .email => score_email

/-- `is_valid_date(text)`. -/
def is_valid_date (text : Str) : Bool := (score_date text).1

/-- `is_valid_email(text)`. -/
def is_valid_email (text : Str) : Bool := email_regex_match (normalize_email text)

/-- `is_valid_iban(text)`: strict format and checksum both required. -/
def is_valid_iban (text : Str) : Bool :=
  let cleaned := normalize_iban text
  if !iban_regex_match cleaned then false else iban_checksum_ok cleaned

/-- `is_valid_phone(text)`. -/
def is_valid_phone (text : Str) : Bool :=
  let cleaned := normalize_phone text
  if cleaned.any isAlphaC then false
  else
    let dc := (digits_only cleaned).length
    if dc < 7 ∨ 15 < dc then false
    else if !phone_regex_match cleaned then false
    else cleaned.any (fun c => c = '+' || c = '(' || c = ')' || isSpaceC c || c = '.' || c = '-')

/-- `is_valid_entity(entity_type, text)`. -/
def is_valid_entity : EntityType → Str → Bool
  | .date => is_valid_date
  | .iban => is_valid_iban
  | .phone => is_valid_phone
  | .email => is_valid_email

/-- `classify_text(text)`: the four scorings in insertion order plus the
best-type selection (`max` keeps the first maximum). -/
structure ClassifyOut where
  date : Bool × ℚ
  iban : Bool × ℚ
  phone : Bool × ℚ
  email : Bool × ℚ
  best : EntityType
  bestScore : ℚ
deriving DecidableEq, Repr

/-- `classify_text(text)`. -/
def classify_text (text : Str) : ClassifyOut :=
  let d := score_date text
  let ib := score_iban text
  let p := score_phone text
  let e := score_email text
  let pairs : List (EntityType × ℚ) :=
    [(.date, d.2), (.iban, ib.2), (.phone, p.2), (.email, e.2)]
  let bestPair := pairs.foldl (fun acc x => if acc.2 < x.2 then x else acc) (.date, d.2)
  { date := d, iban := ib, phone := p, email := e
    best := bestPair.1, bestScore := bestPair.2 }

/-! ## The permissive find regexes (`finditer` models)

Each matcher takes the character just before the current position (for word
boundaries and lookbehind) and the current suffix, and returns the number of
characters its pattern consumes there, following the pattern's greedy,
backtracking semantics.  `finditerGo` then scans positions left to right and
resumes after each match, as `re.finditer` does. -/

/-- Word boundary between an optional previous character and an optional next
character (`\b`): exactly one side is a word character. -/
def wordBoundary (back next : Option Char) : Bool :=
  (match back with | some c => isWordC c | none => false)
    ≠ (match next with | some c => isWordC c | none => false)

/-- Boundary check after a match that ends in a word character: the following
character must be absent or a non-word character. -/
def bAfter (s : Str) : Bool :=
  match s.head? with
  | some c => !isWordC c
  | none => true

/-- Generic `re.finditer` driver: scan every position, emit the span of each
match and continue right after it (our patterns never match empty; the
zero-width branch only guarantees termination). -/
def finditerGo (m : Option Char → Str → Option ℕ) : ℕ → Option Char → Str → ℕ → List (ℕ × ℕ)
  | _, _, [], _ => []
  | 0, _, _ :: _, _ => []
  | fuel + 1, back, c :: rest, pos =>
    match m back (c :: rest) with
    | some n =>
      if 1 ≤ n then
        (pos, pos + n) :: finditerGo m fuel ((c :: rest).get? (n - 1)) ((c :: rest).drop n)
          (pos + n)
      else finditerGo m fuel (some c) rest (pos + 1)
    | none => finditerGo m fuel (some c) rest (pos + 1)

/-- `finditer` over a whole string, returning spans (the scan advances at
least one character per step, so `text.length` steps of fuel suffice). -/
def finditer (m : Option Char → Str → Option ℕ) (text : Str) : List (ℕ × ℕ) :=
  finditerGo m text.length none text 0

/-- `[0-9O]` - the check-digit class of `IBAN_FIND_REGEX`. -/
def isDigitOC (c : Char) : Bool := isDigitC c || c = 'O'

/-- The rep positions of `(?:\s*[A-Z0-9])` starting from `s`: the consumed
lengths and remaining suffixes after 1, 2, ... successful repetitions (each
repetition skips maximal whitespace, then one `[A-Z0-9]`; no backtracking
inside a repetition is possible since whitespace and the class are disjoint). -/
def ibanReps (s : Str) : ℕ → List (ℕ × Str)
  | 0 => []
  | fuel + 1 =>
    let ws := s.takeWhile isSpaceC
    match h : s.dropWhile isSpaceC with
    | c :: rest =>
      if isUpperC c || isDigitC c then
        (ws.length + 1, rest) ::
          (ibanReps rest fuel).map (fun q => (ws.length + 1 + q.1, q.2))
      else []
    | [] => []

/-- Choose the largest viable repetition count (greedy `{11,30}` with
backtracking against the final `\b`). -/
def ibanPickRep (reps : List (ℕ × Str)) : Option ℕ :=
  (reps.enum.filter (fun q => 11 ≤ q.1 + 1 && bAfter q.2.2)).getLast?.map (fun q => q.2.1)

/-- `IBAN_FIND_REGEX = \b[A-Z]{2}\s*[0-9O]{2}(?:\s*[A-Z0-9]){11,30}\b` matcher
at one position. -/
def ibanMatchAt (back : Option Char) (s : Str) : Option ℕ :=
  match s with
  | c1 :: c2 :: rest =>
    if wordBoundary back (some c1) && isUpperC c1 && isUpperC c2 then
      let ws := rest.takeWhile isSpaceC
      match rest.dropWhile isSpaceC with
      | d1 :: d2 :: rest2 =>
        if isDigitOC d1 && isDigitOC d2 then
          match ibanPickRep (ibanReps rest2 30) with
          | some n => some (4 + ws.length + n)
          | none => none
        else none
      | _ => none
    else none
  | _ => none

/-- Continuation of `EMAIL_FIND_REGEX` after the chosen domain-run prefix:
`\s*[_\.]\s*[A-Za-z]{2,}\b` (the letter run is maximal; shortening it can
never restore the trailing boundary). -/
def emailContAt (s : Str) : Option ℕ :=
  let ws := s.takeWhile isSpaceC
  match s.dropWhile isSpaceC with
  | c :: s2 =>
    if c = '_' || c = '.' then
      let ws2 := s2.takeWhile isSpaceC
      let s3 := s2.dropWhile isSpaceC
      let t := s3.takeWhile isAlphaC
      if 2 ≤ t.length && bAfter (s3.drop t.length) then
        some (ws.length + 1 + ws2.length + t.length)
      else none
    else none
  | [] => none

/-- `[A-Za-z0-9._-]` - the middle domain class of `EMAIL_FIND_REGEX`. -/
def isFindDomainC (c : Char) : Bool := isAlnumC c || c = '.' || c = '_' || c = '-'

/-- Greedy backtracking over the `[A-Za-z0-9._-]+` run length (longest
first). -/
def emailTryK (base : ℕ) (s4 : Str) : ℕ → Option ℕ
  | 0 => none
  | k + 1 =>
    match emailContAt (s4.drop (k + 1)) with
    | some n => some (base + (k + 1) + n)
    | none => emailTryK base s4 k

/-- `EMAIL_FIND_REGEX = \b[A-Z0-9._%+-]+\s*@\s*[A-Z0-9._-]+\s*[_\.]\s*[A-Z]{2,}\b`
(IGNORECASE) matcher at one position.  The local-part run is maximal (its
class excludes whitespace and `@`, so backtracking it cannot help). -/
def emailMatchAt (back : Option Char) (s : Str) : Option ℕ :=
  match s with
  | [] => none
  | c :: _ =>
    if wordBoundary back (some c) then
      let loc := s.takeWhile isLocalC
      if loc = [] then none
      else
        let s1 := s.dropWhile isLocalC
        let ws1 := s1.takeWhile isSpaceC
        match s1.dropWhile isSpaceC with
        | a :: s3 =>
          if a = '@' then
            let ws2 := s3.takeWhile isSpaceC
            let s4 := s3.dropWhile isSpaceC
            let run := s4.takeWhile isFindDomainC
            if run = [] then none
            else emailTryK (loc.length + ws1.length + 1 + ws2.length) s4 run.length
          else none
        | [] => none
    else none

/-- Greedy backtracking over the `[\d\s().-]{5,}` body length of
`PHONE_FIND_REGEX` (longest first); the candidate body length is `j`, the
final `\d` sits right after it. -/
def phoneTryJ (base : ℕ) (s3 : Str) : ℕ → Option ℕ
  | 0 => none
  | j + 1 =>
    if j + 1 < 5 then none
    else if (match s3.get? (j + 1) with
      | some d => isDigitC d && bAfter (s3.drop (j + 2))
      | none => false) then some (base + j + 2)
    else phoneTryJ base s3 j

/-- `PHONE_FIND_REGEX = (?<!\w)(?:\+|0)\s*\d[\d\s().-]{5,}\d\b` matcher at one
position. -/
def phoneMatchAt (back : Option Char) (s : Str) : Option ℕ :=
  if (match back with | some c => isWordC c | none => false) then none
  else match s with
    | c :: s1 =>
      if c = '+' || c = '0' then
        let ws := s1.takeWhile isSpaceC
        match s1.dropWhile isSpaceC with
        | d :: s3 =>
          if isDigitC d then
            let run := s3.takeWhile isPhoneBodyC
            phoneTryJ (1 + ws.length + 1) s3 run.length
          else none
        | [] => none
      else none
    | [] => none

/-- Alternation options for the day group of the find regexes, in the
pattern's preference order (`0?[1-9]`, then `[12][0-9]`, then `3[01]`);
each option is the number of characters it consumes. -/
def dayOpts (s : Str) : List ℕ :=
  (match s with
    | c1 :: c2 :: _ =>
      if c1 = '0' && '1' ≤ c2 && c2 ≤ '9' then [2]
      else if '1' ≤ c1 && c1 ≤ '9' then [1] else []
    | [c1] => if '1' ≤ c1 && c1 ≤ '9' then [1] else []
    | [] => [])
  ++ (match s with
    | c1 :: c2 :: _ => if (c1 = '1' || c1 = '2') && isDigitC c2 then [2] else []
    | _ => [])
  ++ (match s with
    | c1 :: c2 :: _ => if c1 = '3' && (c2 = '0' || c2 = '1') then [2] else []
    | _ => [])

/-- Alternation options for the month group (`0?[1-9]`, then `1[0-2]`). -/
def monthOpts (s : Str) : List ℕ :=
  (match s with
    | c1 :: c2 :: _ =>
      if c1 = '0' && '1' ≤ c2 && c2 ≤ '9' then [2]
      else if '1' ≤ c1 && c1 ≤ '9' then [1] else []
    | [c1] => if '1' ≤ c1 && c1 ≤ '9' then [1] else []
    | [] => [])
  ++ (match s with
    | c1 :: c2 :: _ =>
      if c1 = '1' && (c2 = '0' || c2 = '1' || c2 = '2') then [2] else []
    | _ => [])

/-- Alternation options for the year group (`\d{2}`, then `\d{4}`). -/
def yearOpts (s : Str) : List ℕ :=
  (if ((s.take 2).length = 2 && (s.take 2).all isDigitC) then [2] else [])
  ++ (if ((s.take 4).length = 4 && (s.take 4).all isDigitC) then [4] else [])

/-- `\s*[sep]\s*` between date groups: maximal whitespace, one separator,
maximal whitespace (deterministic: whitespace and separators are disjoint). -/
def dateSepConsume (s : Str) : Option (ℕ × Str) :=
  let ws1 := s.takeWhile isSpaceC
  match s.dropWhile isSpaceC with
  | c :: s2 =>
    if isDateSepC c then
      let ws2 := s2.takeWhile isSpaceC
      some (ws1.length + 1 + ws2.length, s2.dropWhile isSpaceC)
    else none
  | [] => none

/-- First successful alternative. -/
def firstSomeN : List (Option ℕ) → Option ℕ
  | [] => none
  | some n :: _ => some n
  | none :: rest => firstSomeN rest

/-- `DATE_FIND_REGEXES[0] = \b(day)\s*[sep]\s*(month)\s*[sep]\s*(\d{2}|\d{4})\b`
matcher at one position (every alternative starts with a digit, so the initial
`\b` requires a non-word predecessor). -/
def dateR1MatchAt (back : Option Char) (s : Str) : Option ℕ :=
  if !(headP isDigitC s && wordBoundary back s.head?) then none
  else
    firstSomeN ((dayOpts s).map (fun dl =>
      match dateSepConsume (s.drop dl) with
      | none => none
      | some (c1, s1) =>
        firstSomeN ((monthOpts s1).map (fun ml =>
          match dateSepConsume (s1.drop ml) with
          | none => none
          | some (c2, s2) =>
            firstSomeN ((yearOpts s2).map (fun yl =>
              if bAfter (s2.drop yl) then some (dl + c1 + ml + c2 + yl)
              else none))))))

/-- `DATE_FIND_REGEXES[1] = \b(\d{4})\s*[sep]\s*(month)\s*[sep]\s*(day)\b`
matcher at one position. -/
def dateR2MatchAt (back : Option Char) (s : Str) : Option ℕ :=
  if !(headP isDigitC s && wordBoundary back s.head?) then none
  else if !((s.take 4).length = 4 && (s.take 4).all isDigitC) then none
  else
    match dateSepConsume (s.drop 4) with
    | none => none
    | some (c1, s1) =>
      firstSomeN ((monthOpts s1).map (fun ml =>
        match dateSepConsume (s1.drop ml) with
        | none => none
        | some (c2, s2) =>
          firstSomeN ((dayOpts s2).map (fun dl =>
            if bAfter (s2.drop dl) then some (4 + c1 + ml + c2 + dl)
            else none))))

/-- A matcher result: raw substring, its normalization, and the span. -/
structure MatchInfo where
  raw : Str
  normalized : Str
  start : ℕ
  stop : ℕ
deriving DecidableEq, Repr

/-- Build `MatchInfo`s from spans. -/
def spansToMatches (text : Str) (norm : Str → Str) (spans : List (ℕ × ℕ)) :
    List MatchInfo :=
  spans.map (fun q =>
    let raw := (text.drop q.1).take (q.2 - q.1)
    { raw := raw, normalized := norm raw, start := q.1, stop := q.2 })

/-- `find_matches_for_type(text, entity_type)`. -/
def find_matches_for_type (text : Str) : EntityType → List MatchInfo
  | .date =>
    spansToMatches text normalize_date_token (finditer dateR1MatchAt text)
      ++ spansToMatches text normalize_date_token (finditer dateR2MatchAt text)
  | .email =>
    spansToMatches text normalize_email (finditer emailMatchAt text)
  | .iban =>
    (spansToMatches text normalize_iban (finditer ibanMatchAt text)).filter
      (fun m => 12 ≤ m.normalized.length && m.normalized.length ≤ 34)
  | .phone =>
    (spansToMatches text normalize_phone (finditer phoneMatchAt text)).filter
      (fun m =>
        let dc := (digits_only m.normalized).length
        (7 ≤ dc && dc ≤ 15)
          && !(m.normalized.any isAlphaC)
          && !(!(m.normalized.any (fun c =>
              c = '+' || c = '(' || c = ')' || isSpaceC c || c = '.' || c = '-'))
            && 10 < dc))

/-! ## Geometry: boxes, tokens, lines (from `ocr.py`) -/

/-- The box dictionary produced by `_bbox_metrics` and carried by tokens and
lines: the four extrema plus the stored `height` field. -/
structure Box where
  min_x : ℚ
  max_x : ℚ
  min_y : ℚ
  max_y : ℚ
  height : ℚ
deriving DecidableEq, Repr

/-- An OCR token: text, confidence, box. -/
structure Token where
  text : Str
  conf : ℚ
  box : Box
deriving DecidableEq, Repr

/-- A clustered line: its tokens and the running union box. -/
structure Line where
  items : List Token
  box : Box
deriving DecidableEq, Repr

/-- `_overlap_ratio(line_box, item_box)`: vertical overlap divided by the
smaller height; Python's `or 1.0` replaces a (falsy) zero denominator by 1. -/
def overlap_frac (lineBox itemBox : Box) : ℚ :=
  let ovl := max 0 (min lineBox.max_y itemBox.max_y - max lineBox.min_y itemBox.min_y)
  let denom := if min lineBox.height itemBox.height = 0 then 1 else min lineBox.height itemBox.height
  ovl / denom

/-- The `for line in lines` scan of `_group_items_into_lines`: strict
improvement (`ratio > best_ratio`, starting from 0.0) keeps the first line
attaining the overall maximum; returns the final best value and its index. -/
def pickBest (itemBox : Box) : List Line → ℕ → ℚ → Option ℕ → ℚ × Option ℕ
  | [], _, best, m => (best, m)
  | ln :: rest, idx, best, m =>
    let r := overlap_frac ln.box itemBox
    if best < r then pickBest itemBox rest (idx + 1) r (some idx)
    else pickBest itemBox rest (idx + 1) best m

/-- Append the token to a matched line and union the line box with the token
box (in the source's field order). -/
def addToLine (item : Token) (ln : Line) : Line :=
  let b := ln.box
  let ib := item.box
  let nMinY := min b.min_y ib.min_y
  let nMaxY := max b.max_y ib.max_y
  { items := ln.items ++ [item]
    box := { min_y := nMinY, max_y := nMaxY, height := nMaxY - nMinY
             min_x := min b.min_x ib.min_x, max_x := max b.max_x ib.max_x } }

/-- Replace the element at an index (the in-place mutation of the matched
line). -/
def updateAt (i : ℕ) (f : Line → Line) : List Line → List Line
  | [] => []
  | ln :: rest =>
    match i with
    | 0 => f ln :: rest
    | j + 1 => ln :: updateAt j f rest

/-- One iteration of the clustering loop. -/
def groupStep (thresh : ℚ) (lines : List Line) (item : Token) : List Line :=
  match pickBest item.box lines 0 0 none with
  | (best, some idx) =>
    if thresh ≤ best then updateAt idx (addToLine item) lines
    else lines ++ [{ items := [item], box := item.box }]
  | (_, none) => lines ++ [{ items := [item], box := item.box }]

/-- Lexicographic order on the `(min_y, min_x)` sort keys. -/
def pairLE (p q : ℚ × ℚ) : Prop := p.1 < q.1 ∨ (p.1 = q.1 ∧ p.2 ≤ q.2)

instance (p q : ℚ × ℚ) : Decidable (pairLE p q) := by
  unfold pairLE
  exact inferInstance

theorem pairLE_total (p q : ℚ × ℚ) : pairLE p q ∨ pairLE q p := by
  rcases lt_trichotomy p.1 q.1 with h | h | h
  · exact Or.inl (Or.inl h)
  · rcases le_total p.2 q.2 with h2 | h2
    · exact Or.inl (Or.inr ⟨h, h2⟩)
    · exact Or.inr (Or.inr ⟨h.symm, h2⟩)
  · exact Or.inr (Or.inl h)

theorem pairLE_trans {p q r : ℚ × ℚ} (h1 : pairLE p q) (h2 : pairLE q r) :
    pairLE p r := by
  rcases h1 with h1 | ⟨h1a, h1b⟩
  · rcases h2 with h2 | ⟨h2a, h2b⟩
    · exact Or.inl (h1.trans h2)
    · exact Or.inl (h2a ▸ h1)
  · rcases h2 with h2 | ⟨h2a, h2b⟩
    · exact Or.inl (h1a ▸ h2)
    · exact Or.inr ⟨h1a.trans h2a, h1b.trans h2b⟩

/-- Sort key of a token (`(box.min_y, box.min_x)`). -/
def tokLE (a b : Token) : Prop := pairLE (a.box.min_y, a.box.min_x) (b.box.min_y, b.box.min_x)

instance (a b : Token) : Decidable (tokLE a b) := by unfold tokLE; exact inferInstance

instance : IsTotal Token tokLE := ⟨fun a b => pairLE_total _ _⟩

instance : IsTrans Token tokLE := ⟨fun _ _ _ => pairLE_trans⟩

/-- Order of tokens inside a line (`key=... min_x`). -/
def tokXLE (a b : Token) : Prop := a.box.min_x ≤ b.box.min_x

instance (a b : Token) : Decidable (tokXLE a b) := by unfold tokXLE; exact inferInstance

instance : IsTotal Token tokXLE := ⟨fun a b => le_total _ _⟩

instance : IsTrans Token tokXLE := ⟨fun _ _ _ h1 h2 => le_trans h1 h2⟩

/-- Sort key of a line (`(box.min_y, box.min_x)`). -/
def lineLE (a b : Line) : Prop := pairLE (a.box.min_y, a.box.min_x) (b.box.min_y, b.box.min_x)

instance (a b : Line) : Decidable (lineLE a b) := by unfold lineLE; exact inferInstance

instance : IsTotal Line lineLE := ⟨fun a b => pairLE_total _ _⟩

instance : IsTrans Line lineLE := ⟨fun _ _ _ => pairLE_trans⟩

/-- `_group_items_into_lines(items, y_overlap_thresh)`: Python's stable sorts
are modelled by `List.insertionSort` (also stable). -/
def group_items_into_lines (items : List Token) (thresh : ℚ) : List Line :=
  let lines := (items.insertionSort tokLE).foldl (groupStep thresh) []
  let lines2 := lines.map (fun ln => { ln with items := ln.items.insertionSort tokXLE })
  lines2.insertionSort lineLE

/-! ## Entity locator (from `ocr.py`) -/

/-- `_line_text_and_offsets(tokens)`: join token texts with single spaces and
record each token's half-open offset interval and index. -/
def lineTextGo : List Token → ℕ → ℕ → Bool → Str × List (ℕ × ℕ × ℕ)
  | [], _, _, _ => ([], [])
  | tok :: rest, idx, pos, first =>
    let start := if first then pos else pos + 1
    let stop := start + tok.text.length
    let q := lineTextGo rest (idx + 1) stop false
    ((if first then [] else [' ']) ++ tok.text ++ q.1, (start, stop, idx) :: q.2)

/-- `_line_text_and_offsets(tokens)`. -/
def line_text_and_offsets (tokens : List Token) : Str × List (ℕ × ℕ × ℕ) :=
  lineTextGo tokens 0 0 true

/-- `_token_indices_for_span(offsets, start, end)`. -/
def token_indices_for_span (offsets : List (ℕ × ℕ × ℕ)) (start stop : ℕ) : List ℕ :=
  (offsets.filter (fun q => start < q.2.1 && q.1 < stop)).map (fun q => q.2.2)

/-- The merged (height-free) box of `_merge_boxes`. -/
structure BBox where
  min_x : ℚ
  min_y : ℚ
  max_x : ℚ
  max_y : ℚ
deriving DecidableEq, Repr

/-- Minimum of a nonempty rational list (callers guarantee nonemptiness; the
`[]` default is never used). -/
def qMin : List ℚ → ℚ
  | [] => 0
  | x :: xs => xs.foldl min x

/-- Maximum of a nonempty rational list. -/
def qMax : List ℚ → ℚ
  | [] => 0
  | x :: xs => xs.foldl max x

/-- `_merge_boxes(tokens)`. -/
def merge_boxes (tokens : List Token) : BBox :=
  { min_x := qMin (tokens.map (fun t => t.box.min_x))
    min_y := qMin (tokens.map (fun t => t.box.min_y))
    max_x := qMax (tokens.map (fun t => t.box.max_x))
    max_y := qMax (tokens.map (fun t => t.box.max_y)) }

/-- A positioned entity (`results` element of `_locate_entities_in_lines`). -/
structure EntityResult where
  value : Str
  raw : Str
  box : BBox
  conf : ℚ
  score : ℚ
  matched : Bool
  etype : EntityType
deriving DecidableEq, Repr

/-- Python's `round(q, 1)` on exact rationals: round half to even at one
decimal. -/
def round1 (q : ℚ) : ℚ :=
  let y := q * 10
  let f := ⌊y⌋
  let r := y - f
  let n : ℤ := if r < 1/2 then f else if 1/2 < r then f + 1 else if f % 2 = 0 then f else f + 1
  (n : ℚ) / 10

/-- The dedupe key: `(value, box rounded to one decimal per coordinate)`. -/
def dedupeKey (r : EntityResult) : Str × ℚ × ℚ × ℚ × ℚ :=
  (r.value, round1 r.box.min_x, round1 r.box.min_y, round1 r.box.max_x, round1 r.box.max_y)

/-- `_dedupe_results(results)`: the `seen` set is modelled as the list of keys
added so far. -/
def dedupeGo : List EntityResult → List (Str × ℚ × ℚ × ℚ × ℚ) → List EntityResult
  | [], _ => []
  | r :: rest, seen =>
    if dedupeKey r ∈ seen then dedupeGo rest seen
    else r :: dedupeGo rest (dedupeKey r :: seen)

/-- `_dedupe_results(results)`. -/
def dedupe_results (results : List EntityResult) : List EntityResult :=
  dedupeGo results []

/-- Sort key of results (`(box.min_y, box.min_x)`). -/
def resLE (a b : EntityResult) : Prop := pairLE (a.box.min_y, a.box.min_x) (b.box.min_y, b.box.min_x)

instance (a b : EntityResult) : Decidable (resLE a b) := by unfold resLE; exact inferInstance

instance : IsTotal EntityResult resLE := ⟨fun a b => pairLE_total _ _⟩

instance : IsTrans EntityResult resLE := ⟨fun _ _ _ => pairLE_trans⟩

/-- Process one match of one line: score filter, validity filter, span-to-token
mapping, box merge and confidence average (`None` models `continue`). -/
def processMatch (tokens : List Token) (offsets : List (ℕ × ℕ × ℕ))
    (t : EntityType) (minScore : Option ℚ) (requireValid : Bool)
    (m : MatchInfo) : Option EntityResult :=
  let value := m.normalized
  let sc := score_entity t value
  if (match minScore with | some ms => decide (sc.2 < ms) | none => false) then none
  else if requireValid && !is_valid_entity t value then none
  else
    let tis := token_indices_for_span offsets m.start m.stop
    if tis = [] then none
    else
      let selected := tis.filterMap (fun i => tokens.get? i)
      some { value := value, raw := m.raw, box := merge_boxes selected
             conf := (selected.map (fun tok => tok.conf)).sum / selected.length
             score := sc.2, matched := sc.1, etype := t }

/-- The per-line result generation of `_locate_entities_in_lines`, before
dedupe and sort. -/
def locateRaw (lines : List Line) (t : EntityType) (minScore : Option ℚ)
    (requireValid : Bool) : List EntityResult :=
  lines.foldl
    (fun acc line =>
      let q := line_text_and_offsets line.items
      acc ++ (find_matches_for_type q.1 t).filterMap
        (processMatch line.items q.2 t minScore requireValid))
    []

/-- `_locate_entities_in_lines(lines, entity_type, min_score, require_valid)`. -/
def locate_entities_in_lines (lines : List Line) (t : EntityType)
    (minScore : Option ℚ) (requireValid : Bool) : List EntityResult :=
  (dedupe_results (locateRaw lines t minScore requireValid)).insertionSort resLE

/-! ## Adjacency-chain toolkit

`chainB R l` states that every two adjacent characters of `l` satisfy `R`.
It is the workhorse for the normalizer idempotence proofs: "no two adjacent
spaces", "no whitespace adjacent to a separator", and similar facts are all
instances. -/

/-- Every two adjacent characters satisfy `R`. -/
def chainB (R : Char → Char → Bool) : Str → Bool
  | a :: b :: rest => R a b && chainB R (b :: rest)
  | _ => true

theorem chainB_nil (R : Char → Char → Bool) : chainB R [] = true := rfl

theorem chainB_one (R : Char → Char → Bool) (a : Char) : chainB R [a] = true := rfl

theorem chainB_cons_cons (R : Char → Char → Bool) (a b : Char) (l : Str) :
    chainB R (a :: b :: l) = (R a b && chainB R (b :: l)) := rfl

theorem chainB_tail {R : Char → Char → Bool} {a : Char} {l : Str}
    (h : chainB R (a :: l) = true) : chainB R l = true := by
  cases l with
  | nil => rfl
  | cons b rest =>
    rw [chainB_cons_cons, Bool.and_eq_true] at h
    exact h.2

theorem chainB_cons_of_head {R : Char → Char → Bool} {a : Char} {l : Str}
    (hl : chainB R l = true) (hh : ∀ b, l.head? = some b → R a b = true) :
    chainB R (a :: l) = true := by
  cases l with
  | nil => rfl
  | cons b rest =>
    rw [chainB_cons_cons, Bool.and_eq_true]
    exact ⟨hh b rfl, hl⟩

theorem chainB_head_rel {R : Char → Char → Bool} {a b : Char} {l : Str}
    (h : chainB R (a :: l) = true) (hb : l.head? = some b) : R a b = true := by
  cases l with
  | nil => simp at hb
  | cons c rest =>
    simp only [List.head?_cons, Option.some.injEq] at hb
    subst hb
    rw [chainB_cons_cons, Bool.and_eq_true] at h
    exact h.1

theorem chainB_dropWhile {R : Char → Char → Bool} (p : Char → Bool) :
    ∀ {l : Str}, chainB R l = true → chainB R (l.dropWhile p) = true := by
  intro l h
  induction l with
  | nil => simpa using h
  | cons a rest ih =>
    rw [List.dropWhile_cons]
    split
    · exact ih (chainB_tail h)
    · exact h

theorem chainB_append_right {R : Char → Char → Bool} :
    ∀ {a b : Str}, chainB R (a ++ b) = true → chainB R b = true := by
  intro a
  induction a with
  | nil => intro b h; simpa using h
  | cons x rest ih => intro b h; exact ih (chainB_tail h)

theorem chainB_append_left {R : Char → Char → Bool} :
    ∀ {a b : Str}, chainB R (a ++ b) = true → chainB R a = true := by
  intro a
  induction a with
  | nil => intro b _; rfl
  | cons x rest ih =>
    intro b h
    cases rest with
    | nil => rfl
    | cons y rest2 =>
      simp only [List.cons_append, chainB_cons_cons, Bool.and_eq_true] at h ⊢
      exact ⟨h.1, ih h.2⟩

theorem chainB_suffix {R : Char → Char → Bool} {a l : Str}
    (hs : a <:+ l) (h : chainB R l = true) : chainB R a = true := by
  obtain ⟨b, rfl⟩ := hs
  exact chainB_append_right h

theorem chainB_prefix {R : Char → Char → Bool} {a l : Str}
    (hs : a <+: l) (h : chainB R l = true) : chainB R a = true := by
  obtain ⟨b, rfl⟩ := hs
  exact chainB_append_left h

theorem chainB_append_mid {R : Char → Char → Bool} {a b : Str} {x : Char}
    (h : chainB R (a ++ x :: b) = true) :
    chainB R (a ++ [x]) = true ∧ chainB R (x :: b) = true := by
  constructor
  · have : a ++ [x] <+: a ++ x :: b := ⟨b, by simp⟩
    exact chainB_prefix this h
  · have : x :: b <:+ a ++ x :: b := ⟨a, rfl⟩
    exact chainB_suffix this h

theorem chainB_append_cons {R : Char → Char → Bool} {a b : Str} {x : Char}
    (h1 : chainB R (a ++ [x]) = true) (h2 : chainB R (x :: b) = true) :
    chainB R (a ++ x :: b) = true := by
  induction a with
  | nil => simpa using h2
  | cons y rest ih =>
    cases rest with
    | nil =>
      simp only [List.nil_append, List.cons_append, List.singleton_append,
        chainB_cons_cons, Bool.and_eq_true] at h1 ⊢
      exact ⟨h1.1, h2⟩
    | cons z rest2 =>
      simp only [List.cons_append, chainB_cons_cons, Bool.and_eq_true] at h1 ⊢
      exact ⟨h1.1, ih h1.2⟩

theorem head?_dropWhile_not (p : Char → Bool) :
    ∀ {l : Str} {d : Char}, (l.dropWhile p).head? = some d → p d = false := by
  intro l
  induction l with
  | nil => intro d h; simp at h
  | cons a rest ih =>
    intro d h
    rw [List.dropWhile_cons] at h
    split at h
    · exact ih h
    · simp only [List.head?_cons, Option.some.injEq] at h
      subst h
      simp_all

theorem getLast?_suffix_ne_nil {a l : Str} (hs : a <:+ l) (hne : a ≠ []) :
    a.getLast? = l.getLast? := by
  obtain ⟨b, rfl⟩ := hs
  exact (List.getLast?_append_of_ne_nil _ hne).symm

/-! ## `subAround` lemmas -/

/-- The adjacency constraint after `re.sub(r"\s*X\s*", "X")`: no whitespace
directly before or after a `p`-character. -/
def okPairB (p : Char → Bool) (a b : Char) : Bool :=
  !(isSpaceC a && p b) && !(p a && isSpaceC b)

theorem subAround_cons (p : Char → Bool) (c : Char) (rest : Str) :
    subAround p (c :: rest) =
      (if p c then c :: (subAround p rest).dropWhile isSpaceC
       else if isSpaceC c && headP p (subAround p rest) then subAround p rest
       else c :: subAround p rest) := rfl

theorem subAround_ne_nil (p : Char → Bool) {l : Str} (h : l ≠ []) :
    subAround p l ≠ [] := by
  cases l with
  | nil => exact absurd rfl h
  | cons c rest =>
    rw [subAround_cons]
    split
    · simp
    · split
      · rename_i hcond
        rw [Bool.and_eq_true] at hcond
        unfold headP at hcond
        intro hnil
        rw [hnil] at hcond
        simp at hcond
      · simp

theorem mem_subAround {p : Char → Bool} :
    ∀ {l : Str} {x : Char}, x ∈ subAround p l → x ∈ l := by
  intro l
  induction l with
  | nil => intro x h; simpa [subAround] using h
  | cons c rest ih =>
    intro x h
    rw [subAround_cons] at h
    split at h
    · rcases List.mem_cons.mp h with h | h
      · exact h ▸ List.mem_cons_self c rest
      · exact List.mem_cons_of_mem c (ih ((List.dropWhile_suffix isSpaceC).subset h))
    · split at h
      · exact List.mem_cons_of_mem c (ih h)
      · rcases List.mem_cons.mp h with h | h
        · exact h ▸ List.mem_cons_self c rest
        · exact List.mem_cons_of_mem c (ih h)

theorem subAround_head (p : Char → Bool) (l : Str) :
    (subAround p l).head? = l.head? ∨
      (∃ d, (subAround p l).head? = some d ∧ p d = true) := by
  cases l with
  | nil => exact Or.inl rfl
  | cons c rest =>
    rw [subAround_cons]
    split
    · exact Or.inr ⟨c, rfl, by assumption⟩
    · split
      · rename_i hcond
        rw [Bool.and_eq_true] at hcond
        have := hcond.2
        unfold headP at this
        split at this
        · rename_i d hd
          exact Or.inr ⟨d, hd, this⟩
        · simp at this
      · exact Or.inl rfl

theorem subAround_eq_self {p : Char → Bool} :
    ∀ {l : Str}, chainB (okPairB p) l = true → subAround p l = l := by
  intro l
  induction l with
  | nil => intro _; rfl
  | cons c rest ih =>
    intro hch
    have hr : subAround p rest = rest := ih (chainB_tail hch)
    rw [subAround_cons, hr]
    by_cases hpc : p c = true
    · rw [if_pos hpc]
      congr 1
      cases rest with
      | nil => rfl
      | cons b rest2 =>
        have hpair : okPairB p c b = true := chainB_head_rel hch rfl
        unfold okPairB at hpair
        simp only [Bool.and_eq_true, Bool.not_eq_true', Bool.and_eq_false_iff] at hpair
        rcases hpair.2 with hb | hb
        · simp_all
        · rw [List.dropWhile_cons, if_neg (by simp [hb])]
    · rw [if_neg hpc]
      have hdel : (isSpaceC c && headP p rest) = false := by
        by_cases hsc : isSpaceC c = true
        · cases hrest : rest with
          | nil => simp [headP, hrest]
          | cons b rest2 =>
            have hpair : okPairB p c b = true := chainB_head_rel hch (by rw [hrest]; rfl)
            unfold okPairB at hpair
            simp only [Bool.and_eq_true, Bool.not_eq_true', Bool.and_eq_false_iff] at hpair
            rcases hpair.1 with hb | hb
            · simp_all
            · simp [headP, hrest, hb]
        · simp [Bool.eq_false_iff.mpr hsc]
      rw [hdel]
      simp

theorem subAround_chain_self {p : Char → Bool}
    (hp : ∀ c, p c = true → isSpaceC c = false) :
    ∀ (l : Str), chainB (okPairB p) (subAround p l) = true := by
  intro l
  induction l with
  | nil => rfl
  | cons c rest ih =>
    rw [subAround_cons]
    split
    · rename_i hpc
      apply chainB_cons_of_head (chainB_dropWhile isSpaceC ih)
      intro b hb
      have hbs : isSpaceC b = false := head?_dropWhile_not isSpaceC hb
      unfold okPairB
      simp [hp c hpc, hbs]
    · split
      · exact ih
      · rename_i hpc hcond
        apply chainB_cons_of_head ih
        intro b hb
        unfold okPairB
        have h1 : (isSpaceC c && p b) = false := by
          cases hcc : isSpaceC c with
          | false => simp
          | true =>
            have hhp : headP p (subAround p rest) = false := by
              by_contra hcon
              simp only [Bool.not_eq_false] at hcon
              rw [hcc, hcon] at hcond
              simp at hcond
            unfold headP at hhp
            rw [hb] at hhp
            have hpb : p b = false := hhp
            simp [hpb]
        have h2 : (p c && isSpaceC b) = false := by
          cases hpcv : p c with
          | false => simp
          | true => exact absurd hpcv hpc
        rw [h1, h2]
        rfl

theorem subAround_chain_pres {R : Char → Char → Bool} {q : Char → Bool}
    (H1 : ∀ c d, q d = true → R c d = true)
    (H2 : ∀ c d, q c = true → R c d = true) :
    ∀ {l : Str}, chainB R l = true → chainB R (subAround q l) = true := by
  intro l
  induction l with
  | nil => intro _; rfl
  | cons c rest ih =>
    intro hch
    have ihr := ih (chainB_tail hch)
    rw [subAround_cons]
    split
    · rename_i hqc
      apply chainB_cons_of_head (chainB_dropWhile isSpaceC ihr)
      intro b _
      exact H2 c b hqc
    · split
      · exact ihr
      · apply chainB_cons_of_head ihr
        intro b hb
        rcases subAround_head q rest with hh | ⟨d, hd, hqd⟩
        · rw [hb] at hh
          exact chainB_head_rel hch hh.symm
        · rw [hb] at hd
          obtain rfl : b = d := by injection hd
          exact H1 c b hqd

/-- Predicate: the first character (if any) is not whitespace. -/
def startsOk (l : Str) : Bool :=
  match l.head? with
  | some c => !isSpaceC c
  | none => true

/-- Predicate: the last character (if any) is not whitespace. -/
def endsOk (l : Str) : Bool :=
  match l.getLast? with
  | some c => !isSpaceC c
  | none => true

theorem startsOk_subAround {q : Char → Bool}
    (hq : ∀ c, q c = true → isSpaceC c = false) {l : Str}
    (h : startsOk l = true) : startsOk (subAround q l) = true := by
  unfold startsOk at *
  rcases subAround_head q l with hh | ⟨d, hd, hqd⟩
  · rw [hh]; exact h
  · rw [hd]
    simp [hq d hqd]

theorem getLast?_cons_ne_nil {rest : Str} (c : Char) (h : rest ≠ []) :
    (c :: rest).getLast? = rest.getLast? := by
  cases hr : rest.getLast? with
  | none => exact absurd (List.getLast?_eq_none_iff.mp hr) h
  | some d => rw [List.getLast?_cons, hr]; rfl

theorem endsOk_cons {c : Char} {rest : Str} (h : rest ≠ []) :
    endsOk (c :: rest) = endsOk rest := by
  unfold endsOk
  rw [getLast?_cons_ne_nil c h]

theorem endsOk_subAround {q : Char → Bool}
    (hq : ∀ c, q c = true → isSpaceC c = false) :
    ∀ {l : Str}, endsOk l = true → endsOk (subAround q l) = true := by
  intro l
  induction l with
  | nil => intro h; exact h
  | cons c rest ih =>
    intro h
    rw [subAround_cons]
    split
    · rename_i hqc
      cases hdrop : (subAround q rest).dropWhile isSpaceC with
      | nil =>
        unfold endsOk
        simp [hq c hqc]
      | cons x xs =>
        have hne2 : (subAround q rest).dropWhile isSpaceC ≠ [] := by rw [hdrop]; simp
        have hsubne : subAround q rest ≠ [] := fun hcon => hne2 (by rw [hcon]; rfl)
        have hrne : rest ≠ [] := fun hcon => hsubne (by rw [hcon]; rfl)
        have h1 : ((subAround q rest).dropWhile isSpaceC).getLast? = (subAround q rest).getLast? :=
          getLast?_suffix_ne_nil (List.dropWhile_suffix isSpaceC) hne2
        have h2 := ih (by rw [← endsOk_cons hrne]; exact h)
        have hxs : ((x :: xs : Str)).getLast? = (subAround q rest).getLast? := by
          rw [← hdrop]
          exact h1
        rw [endsOk_cons (by simp : (x :: xs : Str) ≠ [])]
        unfold endsOk at h2 ⊢
        rw [hxs]
        exact h2
    · split
      · rename_i hcond
        rw [Bool.and_eq_true] at hcond
        have hsubne : subAround q rest ≠ [] := by
          intro hcon
          have := hcond.2
          rw [hcon] at this
          simp [headP] at this
        have hrne : rest ≠ [] := fun hcon => hsubne (by rw [hcon]; rfl)
        exact ih (by rw [← endsOk_cons hrne]; exact h)
      · cases rest with
        | nil => exact h
        | cons y ys =>
          have hrne : (y :: ys) ≠ [] := by simp
          have hsubne : subAround q (y :: ys) ≠ [] := subAround_ne_nil q hrne
          rw [endsOk_cons hsubne]
          exact ih (by rw [← endsOk_cons hrne]; exact h)

/-! ## `normalize_spaces` lemmas -/

/-- No two adjacent plain spaces. -/
def noDoubleR (a b : Char) : Bool := !(a = ' ' && b = ' ')

/-- The characters `replace`d away by `normalize_spaces` step 1. -/
def isTabNlC (c : Char) : Bool := c = '\t' || c = '\r' || c = '\n'

/-- No tab, carriage return, or newline characters. -/
def noTabs (l : Str) : Bool := l.all (fun c => !isTabNlC c)

theorem bool_or_not_eq (x y : Bool) : (x || !y) = !((!x) && y) := by
  cases x <;> cases y <;> rfl

theorem hasDouble_eq_chainB : ∀ l : Str, hasDouble l = !(chainB noDoubleR l) := by
  intro l
  induction l with
  | nil => rfl
  | cons a rest ih =>
    cases rest with
    | nil => rfl
    | cons b rest2 =>
      have hstep : hasDouble (a :: b :: rest2)
          = ((a = ' ' && b = ' ') || hasDouble (b :: rest2)) := rfl
      have hnd : noDoubleR a b = !(a = ' ' && b = ' ') := rfl
      rw [hstep, chainB_cons_cons, ih, hnd]
      exact bool_or_not_eq _ _

/-- Loop induction for `collapseSpaces`: the body case and the exit case. -/
theorem collapseSpaces_ind {P : Str → Prop}
    (case1 : ∀ l, hasDouble l = true → P (replaceDouble l) → P l)
    (case2 : ∀ l, ¬ hasDouble l = true → P l) (l : Str) : P l := by
  have H : ∀ (n : ℕ) (l : Str), l.length ≤ n → P l := by
    intro n
    induction n with
    | zero =>
      intro l hl
      have hnil : l = [] := by
        cases l with
        | nil => rfl
        | cons c r => simp at hl
      subst hnil
      exact case2 [] (by simp [hasDouble])
    | succ n' ih =>
      intro l hl
      cases hd : hasDouble l with
      | false => exact case2 l (by simp [hd])
      | true =>
        have hlt := replaceDouble_length_lt l hd
        exact case1 l hd (ih _ (by omega))
  exact H l.length l (le_refl _)

theorem collapseSpaces_no_double (l : Str) : hasDouble (collapseSpaces l) = false := by
  induction l using collapseSpaces_ind with
  | case1 l hd ih =>
    rw [collapseSpaces_eq, if_pos hd]
    exact ih
  | case2 l hd =>
    rw [collapseSpaces_eq, if_neg hd]
    simpa using hd

theorem collapseSpaces_eq_self {l : Str} (h : hasDouble l = false) :
    collapseSpaces l = l := by
  rw [collapseSpaces_eq, if_neg (by simp [h])]

theorem map_eq_self_of {f : Char → Char} :
    ∀ {l : Str}, (∀ c ∈ l, f c = c) → l.map f = l := by
  intro l
  induction l with
  | nil => intro _; rfl
  | cons c rest ih =>
    intro h
    simp only [List.map_cons]
    rw [h c (List.mem_cons_self c rest), ih (fun x hx => h x (List.mem_cons_of_mem c hx))]

theorem dropWhile_eq_self_of_startsOk {p : Char → Bool} {l : Str}
    (hp : ∀ c, isSpaceC c = false → p c = false)
    (h : startsOk l = true) : l.dropWhile p = l := by
  cases l with
  | nil => rfl
  | cons c rest =>
    unfold startsOk at h
    simp only [List.head?_cons] at h
    rw [List.dropWhile_cons, if_neg (by simp [hp c (by simpa using h)])]

theorem stripEnds_eq_self {l : Str} (h1 : startsOk l = true) (h2 : endsOk l = true) :
    stripEnds l = l := by
  unfold stripEnds
  rw [dropWhile_eq_self_of_startsOk (fun c hc => hc) h1]
  have hrev : l.reverse.dropWhile isSpaceC = l.reverse := by
    apply dropWhile_eq_self_of_startsOk (fun c hc => hc)
    unfold startsOk
    rw [List.head?_reverse]
    exact h2
  rw [hrev, List.reverse_reverse]

theorem normalize_spaces_eq_self {l : Str} (ht : noTabs l = true)
    (hd : hasDouble l = false) (hs : startsOk l = true) (he : endsOk l = true) :
    normalize_spaces l = l := by
  unfold normalize_spaces tabsToSpaces
  rw [map_eq_self_of (by
    intro c hc
    unfold noTabs isTabNlC at ht
    rw [List.all_eq_true] at ht
    have h3 := ht c hc
    simp only [Bool.not_eq_true', Bool.or_eq_false_iff, decide_eq_false_iff_not] at h3
    simp [h3.1.1, h3.1.2, h3.2])]
  rw [collapseSpaces_eq_self hd, stripEnds_eq_self hs he]

/-- `l.all f` survives `replaceDouble` when `f ' '` holds. -/
theorem all_replaceDouble {f : Char → Bool} (hf : f ' ' = true) :
    ∀ {l : Str}, l.all f = true → (replaceDouble l).all f = true := by
  intro l
  induction l using replaceDouble.induct with
  | case1 => intro _; rfl
  | case2 c => intro h; exact h
  | case3 c1 c2 rest hc ih =>
    intro h
    simp only [List.all_cons, Bool.and_eq_true] at h ⊢
    rw [replaceDouble, if_pos hc]
    simp only [List.all_cons, Bool.and_eq_true]
    exact ⟨hf, ih h.2.2⟩
  | case4 c1 c2 rest hc ih =>
    intro h
    simp only [List.all_cons, Bool.and_eq_true] at h
    rw [replaceDouble, if_neg hc]
    simp only [List.all_cons, Bool.and_eq_true]
    exact ⟨h.1, ih (by simp only [List.all_cons, Bool.and_eq_true]; exact h.2)⟩

theorem all_collapseSpaces {f : Char → Bool} (hf : f ' ' = true) {l : Str}
    (h : l.all f = true) : (collapseSpaces l).all f = true := by
  induction l using collapseSpaces_ind with
  | case1 l hd ih =>
    rw [collapseSpaces_eq, if_pos hd]
    exact ih (all_replaceDouble hf h)
  | case2 l hd =>
    rwa [collapseSpaces_eq, if_neg hd]

theorem all_stripEnds {f : Char → Bool} {l : Str} (h : l.all f = true) :
    (stripEnds l).all f = true := by
  rw [List.all_eq_true] at h ⊢
  intro x hx
  apply h
  unfold stripEnds at hx
  have hx2 := List.mem_reverse.mp hx
  have hx3 := (List.dropWhile_suffix isSpaceC).subset hx2
  have hx4 := List.mem_reverse.mp hx3
  exact (List.dropWhile_suffix isSpaceC).subset hx4

theorem all_normalize_spaces {f : Char → Bool} (hf : f ' ' = true) {l : Str}
    (h : (tabsToSpaces l).all f = true) : (normalize_spaces l).all f = true :=
  all_stripEnds (all_collapseSpaces hf h)

theorem noTabs_tabsToSpaces (l : Str) : noTabs (tabsToSpaces l) = true := by
  unfold noTabs tabsToSpaces
  rw [List.all_eq_true]
  intro x hx
  rw [List.mem_map] at hx
  obtain ⟨c, _, rfl⟩ := hx
  unfold isTabNlC
  split <;> simp_all

theorem noTabs_normalize_spaces (l : Str) : noTabs (normalize_spaces l) = true := by
  unfold normalize_spaces
  exact all_stripEnds (all_collapseSpaces (by rfl) (noTabs_tabsToSpaces l))

theorem no_double_normalize_spaces (l : Str) :
    hasDouble (normalize_spaces l) = false := by
  unfold normalize_spaces stripEnds
  rw [hasDouble_eq_chainB]
  have h0 : chainB noDoubleR (collapseSpaces (tabsToSpaces l)) = true := by
    have := collapseSpaces_no_double (tabsToSpaces l)
    rw [hasDouble_eq_chainB] at this
    simpa using this
  have h1 : chainB noDoubleR ((collapseSpaces (tabsToSpaces l)).dropWhile isSpaceC) = true :=
    chainB_dropWhile isSpaceC h0
  set m := (collapseSpaces (tabsToSpaces l)).dropWhile isSpaceC with hm
  have hpre : (m.reverse.dropWhile isSpaceC).reverse <+: m := by
    have hsuf : m.reverse.dropWhile isSpaceC <:+ m.reverse := List.dropWhile_suffix isSpaceC
    obtain ⟨a, ha⟩ := hsuf
    refine ⟨a.reverse, ?_⟩
    have := congrArg List.reverse ha
    simpa using this
  have := chainB_prefix hpre h1
  simpa using this

theorem head?_prefix_ne_nil {a l : Str} (hp : a <+: l) (hne : a ≠ []) :
    a.head? = l.head? := by
  obtain ⟨t, rfl⟩ := hp
  cases a with
  | nil => exact absurd rfl hne
  | cons c rest => rfl

theorem startsOk_normalize_spaces (l : Str) : startsOk (normalize_spaces l) = true := by
  unfold normalize_spaces stripEnds
  set m := (collapseSpaces (tabsToSpaces l)).dropWhile isSpaceC with hm
  have hmhead : startsOk m = true := by
    unfold startsOk
    cases hh : m.head? with
    | none => rfl
    | some c =>
      have : isSpaceC c = false := head?_dropWhile_not isSpaceC hh
      simp [this]
  have hpre : (m.reverse.dropWhile isSpaceC).reverse <+: m := by
    obtain ⟨a, ha⟩ := List.dropWhile_suffix (l := m.reverse) isSpaceC
    refine ⟨a.reverse, ?_⟩
    have := congrArg List.reverse ha
    simpa using this
  unfold startsOk at hmhead ⊢
  cases hh : (m.reverse.dropWhile isSpaceC).reverse.head? with
  | none => rfl
  | some c =>
    have hne : (m.reverse.dropWhile isSpaceC).reverse ≠ [] := by
      intro hcon
      rw [hcon] at hh
      simp at hh
    rw [head?_prefix_ne_nil hpre hne] at hh
    rw [hh] at hmhead
    exact hmhead

theorem endsOk_normalize_spaces (l : Str) : endsOk (normalize_spaces l) = true := by
  unfold normalize_spaces stripEnds
  unfold endsOk
  cases hh : ((((collapseSpaces (tabsToSpaces l)).dropWhile isSpaceC).reverse.dropWhile
      isSpaceC).reverse).getLast? with
  | none => rfl
  | some c =>
    rw [List.getLast?_reverse] at hh
    have : isSpaceC c = false := head?_dropWhile_not isSpaceC hh
    simp [this]

/-! ## `collapseWsRuns` lemmas (for `normalize_phone`) -/

/-- No two adjacent whitespace characters. -/
def noTwoWsR (a b : Char) : Bool := !(isSpaceC a && isSpaceC b)

/-- Every whitespace character is a plain space. -/
def wsIsPlain (l : Str) : Bool := l.all (fun c => !isSpaceC c || c = ' ')

theorem chainB_mono {R R' : Char → Char → Bool}
    (h : ∀ a b, R a b = true → R' a b = true) :
    ∀ {l : Str}, chainB R l = true → chainB R' l = true := by
  intro l
  induction l with
  | nil => intro _; rfl
  | cons a rest ih =>
    intro hc
    cases rest with
    | nil => rfl
    | cons b rest2 =>
      rw [chainB_cons_cons, Bool.and_eq_true] at hc ⊢
      exact ⟨h a b hc.1, ih hc.2⟩

theorem collapseWsRuns_nil : collapseWsRuns [] = [] := rfl

theorem collapseWsRuns_nil_iff : ∀ {l : Str}, collapseWsRuns l = [] ↔ l = [] := by
  intro l
  cases l with
  | nil => simp [collapseWsRuns_nil]
  | cons c rest =>
    rw [collapseWsRuns_cons]
    constructor
    · intro h
      split at h <;> simp at h
    · intro h
      simp at h

theorem collapseWsRuns_head (l : Str) :
    (collapseWsRuns l).head? = l.head? ∨
      ((collapseWsRuns l).head? = some ' ' ∧ headP isSpaceC l = true) := by
  cases l with
  | nil =>
    rw [collapseWsRuns_nil]
    exact Or.inl rfl
  | cons c rest =>
    rw [collapseWsRuns_cons]
    split
    · rename_i hc
      exact Or.inr ⟨rfl, by simp [headP, hc]⟩
    · exact Or.inl rfl

theorem all_collapseWsRuns {f : Char → Bool} (hf : f ' ' = true) :
    ∀ {l : Str}, l.all f = true → (collapseWsRuns l).all f = true := by
  intro l
  induction l using collapseWsRuns_ind with
  | case1 => intro _; rw [collapseWsRuns_nil]; rfl
  | case2 c rest hc ih =>
    intro h
    rw [collapseWsRuns_cons, if_pos hc]
    simp only [List.all_cons, Bool.and_eq_true] at h ⊢
    refine ⟨hf, ih ?_⟩
    rw [List.all_eq_true] at h ⊢
    intro x hx
    exact h.2 x ((List.dropWhile_suffix isSpaceC).subset hx)
  | case3 c rest hc ih =>
    intro h
    rw [collapseWsRuns_cons, if_neg hc]
    simp only [List.all_cons, Bool.and_eq_true] at h ⊢
    exact ⟨h.1, ih h.2⟩

theorem wsIsPlain_collapseWsRuns (l : Str) : wsIsPlain (collapseWsRuns l) = true := by
  induction l using collapseWsRuns_ind with
  | case1 => rw [collapseWsRuns_nil]; rfl
  | case2 c rest hc ih =>
    rw [collapseWsRuns_cons, if_pos hc]
    unfold wsIsPlain at ih ⊢
    simp only [List.all_cons, Bool.and_eq_true]
    exact ⟨by simp, ih⟩
  | case3 c rest hc ih =>
    rw [collapseWsRuns_cons, if_neg hc]
    unfold wsIsPlain at ih ⊢
    simp only [List.all_cons, Bool.and_eq_true]
    refine ⟨?_, ih⟩
    simp [Bool.eq_false_iff.mpr hc]

theorem chain_noTwoWs_collapseWsRuns (l : Str) :
    chainB noTwoWsR (collapseWsRuns l) = true := by
  induction l using collapseWsRuns_ind with
  | case1 => rw [collapseWsRuns_nil]; rfl
  | case2 c rest hc ih =>
    rw [collapseWsRuns_cons, if_pos hc]
    apply chainB_cons_of_head ih
    intro b hb
    rcases collapseWsRuns_head (rest.dropWhile isSpaceC) with hh | hh
    · rw [hb] at hh
      have : isSpaceC b = false := head?_dropWhile_not isSpaceC hh.symm
      unfold noTwoWsR
      simp [this]
    · exfalso
      have h2 := hh.2
      unfold headP at h2
      cases hdw : (rest.dropWhile isSpaceC).head? with
      | none => rw [hdw] at h2; simp at h2
      | some d =>
        rw [hdw] at h2
        have h2x : isSpaceC d = true := h2
        have hdf : isSpaceC d = false := head?_dropWhile_not isSpaceC hdw
        rw [hdf] at h2x
        simp at h2x
  | case3 c rest hc ih =>
    rw [collapseWsRuns_cons, if_neg hc]
    apply chainB_cons_of_head ih
    intro b hb
    unfold noTwoWsR
    simp [Bool.eq_false_iff.mpr hc]

theorem collapseWsRuns_eq_self :
    ∀ {l : Str}, chainB noTwoWsR l = true → wsIsPlain l = true →
      collapseWsRuns l = l := by
  intro l
  induction l using collapseWsRuns_ind with
  | case1 => intro _ _; exact collapseWsRuns_nil
  | case2 c rest hc ih =>
    intro hch hpl
    rw [collapseWsRuns_cons, if_pos hc]
    have hcsp : c = ' ' := by
      unfold wsIsPlain at hpl
      simp only [List.all_cons, Bool.and_eq_true] at hpl
      have h1 := hpl.1
      rw [hc] at h1
      simpa using h1
    have hdw : rest.dropWhile isSpaceC = rest := by
      cases rest with
      | nil => rfl
      | cons d rest2 =>
        have hpair : noTwoWsR c d = true := chainB_head_rel hch rfl
        unfold noTwoWsR at hpair
        rw [hc] at hpair
        have hd : isSpaceC d = false := by simpa using hpair
        rw [List.dropWhile_cons, if_neg (by simp [hd])]
    rw [hdw] at ih ⊢
    rw [ih (chainB_tail hch) (by
      unfold wsIsPlain at hpl ⊢
      simp only [List.all_cons, Bool.and_eq_true] at hpl
      exact hpl.2), hcsp]
  | case3 c rest hc ih =>
    intro hch hpl
    rw [collapseWsRuns_cons, if_neg hc]
    rw [ih (chainB_tail hch) (by
      unfold wsIsPlain at hpl ⊢
      simp only [List.all_cons, Bool.and_eq_true] at hpl
      exact hpl.2)]

theorem startsOk_collapseWsRuns {l : Str} (h : startsOk l = true) :
    startsOk (collapseWsRuns l) = true := by
  cases l with
  | nil => rw [collapseWsRuns_nil]; rfl
  | cons c rest =>
    unfold startsOk at h
    simp only [List.head?_cons] at h
    have hc : isSpaceC c = false := by simpa using h
    rw [collapseWsRuns_cons, if_neg (by simp [hc])]
    unfold startsOk
    simp [hc]

theorem endsOk_collapseWsRuns : ∀ {l : Str}, endsOk l = true →
    endsOk (collapseWsRuns l) = true := by
  intro l
  induction l using collapseWsRuns_ind with
  | case1 => intro _; rw [collapseWsRuns_nil]; rfl
  | case2 c rest hc ih =>
    intro h
    rw [collapseWsRuns_cons, if_pos hc]
    cases rest with
    | nil =>
      exfalso
      unfold endsOk at h
      simp only [List.getLast?_singleton] at h
      rw [hc] at h
      simp at h
    | cons d rest2 =>
      have hrne : (d :: rest2 : Str) ≠ [] := by simp
      have hrest : endsOk (d :: rest2) = true := by rw [← endsOk_cons hrne]; exact h
      have hmne : (d :: rest2 : Str).dropWhile isSpaceC ≠ [] := by
        intro hcon
        rw [List.dropWhile_eq_nil_iff] at hcon
        cases hg : (d :: rest2 : Str).getLast? with
        | none => exact absurd (List.getLast?_eq_none_iff.mp hg) hrne
        | some g =>
          have hmem : g ∈ (d :: rest2 : Str) := by
            obtain ⟨hne2, heq⟩ := List.mem_getLast?_eq_getLast
              (show g ∈ (d :: rest2 : Str).getLast? from by rw [hg]; rfl)
            rw [heq]
            exact List.getLast_mem hne2
          have hgws := hcon g hmem
          unfold endsOk at hrest
          rw [hg] at hrest
          have hrest2 : (!isSpaceC g) = true := hrest
          rw [hgws] at hrest2
          simp at hrest2
      have hmends : endsOk ((d :: rest2 : Str).dropWhile isSpaceC) = true := by
        unfold endsOk at hrest ⊢
        rw [getLast?_suffix_ne_nil (List.dropWhile_suffix isSpaceC) hmne]
        exact hrest
      have hcw := ih hmends
      have hcwne : collapseWsRuns ((d :: rest2 : Str).dropWhile isSpaceC) ≠ [] := by
        intro hcon
        exact hmne (collapseWsRuns_nil_iff.mp hcon)
      rw [endsOk_cons hcwne]
      exact hcw
  | case3 c rest hc ih =>
    intro h
    rw [collapseWsRuns_cons, if_neg hc]
    cases rest with
    | nil =>
      rw [collapseWsRuns_nil]
      exact h
    | cons d rest2 =>
      have hrne : (d :: rest2 : Str) ≠ [] := by simp
      have hcwne : collapseWsRuns (d :: rest2) ≠ [] := by
        intro hcon
        exact hrne (collapseWsRuns_nil_iff.mp hcon)
      rw [endsOk_cons hcwne]
      exact ih (by rw [← endsOk_cons hrne]; exact h)

theorem noTwoWs_imp_noDouble (a b : Char) (h : noTwoWsR a b = true) :
    noDoubleR a b = true := by
  unfold noTwoWsR at h
  unfold noDoubleR
  cases ha : (decide (a = ' ') && decide (b = ' ')) with
  | false => simp
  | true =>
    exfalso
    rw [Bool.and_eq_true] at ha
    have ha1 : a = ' ' := by simpa using ha.1
    have ha2 : b = ' ' := by simpa using ha.2
    rw [ha1, ha2] at h
    simp [isSpaceC] at h

/-- `normalize_phone` is idempotent. -/
theorem normalize_phone_idem (l : Str) :
    normalize_phone (normalize_phone l) = normalize_phone l := by
  unfold normalize_phone
  have h1 : normalize_spaces (collapseWsRuns (normalize_spaces l))
      = collapseWsRuns (normalize_spaces l) := by
    apply normalize_spaces_eq_self
    · exact all_collapseWsRuns (by rfl) (noTabs_normalize_spaces l)
    · rw [hasDouble_eq_chainB]
      have := chainB_mono noTwoWs_imp_noDouble
        (chain_noTwoWs_collapseWsRuns (normalize_spaces l))
      simp [this]
    · exact startsOk_collapseWsRuns (startsOk_normalize_spaces l)
    · exact endsOk_collapseWsRuns (endsOk_normalize_spaces l)
  rw [h1]
  rw [collapseWsRuns_eq_self (chain_noTwoWs_collapseWsRuns (normalize_spaces l))
    (wsIsPlain_collapseWsRuns (normalize_spaces l))]

/-! ## `normalize_date_token` idempotence -/

theorem all_subAround {f : Char → Bool} {p : Char → Bool} {l : Str}
    (h : l.all f = true) : (subAround p l).all f = true := by
  rw [List.all_eq_true] at h ⊢
  intro x hx
  exact h x (mem_subAround hx)

theorem chain_noDouble_normalize_spaces (l : Str) :
    chainB noDoubleR (normalize_spaces l) = true := by
  have := no_double_normalize_spaces l
  rw [hasDouble_eq_chainB] at this
  simpa using this

theorem noDouble_ok_of_not_space_right {c d : Char} (h : isSpaceC d = false) :
    noDoubleR c d = true := by
  unfold noDoubleR
  cases hd : decide (d = ' ') with
  | false => simp
  | true =>
    exfalso
    have : d = ' ' := by simpa using hd
    rw [this] at h
    simp [isSpaceC] at h

theorem noDouble_ok_of_not_space_left {c d : Char} (h : isSpaceC c = false) :
    noDoubleR c d = true := by
  unfold noDoubleR
  cases hc : decide (c = ' ') with
  | false => simp
  | true =>
    exfalso
    have : c = ' ' := by simpa using hc
    rw [this] at h
    simp [isSpaceC] at h

theorem dateSep_not_space (c : Char) (h : isDateSepC c = true) : isSpaceC c = false := by
  unfold isDateSepC at h
  simp only [Bool.or_eq_true, decide_eq_true_eq] at h
  rcases h with (h | h) | h <;> (subst h; decide)

/-- Idempotence of normalization after `normalize_spaces` followed by one
`subAround` pass whose class contains no whitespace characters. -/
theorem ns_subAround_idem {q : Char → Bool}
    (hq : ∀ c, q c = true → isSpaceC c = false) (l : Str) :
    subAround q (normalize_spaces (subAround q (normalize_spaces l)))
      = subAround q (normalize_spaces l) := by
  have hns : normalize_spaces (subAround q (normalize_spaces l))
      = subAround q (normalize_spaces l) := by
    apply normalize_spaces_eq_self
    · exact all_subAround (noTabs_normalize_spaces l)
    · rw [hasDouble_eq_chainB]
      have := subAround_chain_pres
        (fun c d hd => noDouble_ok_of_not_space_right (hq d hd))
        (fun c d hc => noDouble_ok_of_not_space_left (hq c hc))
        (chain_noDouble_normalize_spaces l)
      simp [this]
    · exact startsOk_subAround hq (startsOk_normalize_spaces l)
    · exact endsOk_subAround hq (endsOk_normalize_spaces l)
  rw [hns]
  exact subAround_eq_self (subAround_chain_self hq (normalize_spaces l))

/-- `normalize_date_token` is idempotent. -/
theorem normalize_date_token_idem (l : Str) :
    normalize_date_token (normalize_date_token l) = normalize_date_token l := by
  unfold normalize_date_token
  exact ns_subAround_idem dateSep_not_space l

/-! ## `normalize_iban` idempotence -/

theorem char_le_iff (a b : Char) : (a ≤ b) ↔ a.toNat ≤ b.toNat := by
  rw [Char.le_def, UInt32.le_def, BitVec.le_def]
  exact Iff.rfl

theorem char_toNat_ofNat (n : ℕ) (h : n.isValidChar) : (Char.ofNat n).toNat = n := by
  simp [Char.ofNat, h, Char.toNat, Char.ofNatAux, UInt32.toNat, BitVec.toNat_ofNatLt]

theorem isLowerC_toNat {c : Char} (h : isLowerC c = true) :
    97 ≤ c.toNat ∧ c.toNat ≤ 122 := by
  unfold isLowerC at h
  rw [Bool.and_eq_true] at h
  have h1 : ('a' : Char) ≤ c := by simpa using h.1
  have h2 : c ≤ ('z' : Char) := by simpa using h.2
  rw [char_le_iff] at h1 h2
  exact ⟨h1, h2⟩

theorem upperChar_not_lower (c : Char) : isLowerC (upperChar c) = false := by
  unfold upperChar
  split
  · rename_i h
    obtain ⟨h1, h2⟩ := isLowerC_toNat h
    have hv : (c.toNat - 32).isValidChar := by
      constructor
      omega
    have htn := char_toNat_ofNat (c.toNat - 32) hv
    unfold isLowerC
    cases hlow : (decide (('a' : Char) ≤ Char.ofNat (c.toNat - 32))) with
    | false => simp
    | true =>
      exfalso
      have : ('a' : Char) ≤ Char.ofNat (c.toNat - 32) := by simpa using hlow
      rw [char_le_iff, htn] at this
      have : (97 : ℕ) ≤ c.toNat - 32 := this
      omega
  · rename_i h
    simpa using h

theorem upperChar_idem (c : Char) : upperChar (upperChar c) = upperChar c := by
  conv_lhs => rw [upperChar]
  rw [if_neg (by simp [upperChar_not_lower])]

/-- `normalize_iban` is the identity on strings whose characters are already
uppercase-stable and whitespace-free and whose check-digit slice has no `O`. -/
theorem normalize_iban_fixed {r : Str}
    (hm : ∀ c ∈ r, upperChar c = c ∧ isSpaceC c = false)
    (hO : 4 ≤ r.length → 'O' ∉ (r.drop 2).take 2) :
    normalize_iban r = r := by
  simp only [normalize_iban]
  have hclean : (r.map upperChar).filter (fun c => !isSpaceC c) = r := by
    rw [map_eq_self_of (fun c hc => (hm c hc).1)]
    exact List.filter_eq_self.mpr (fun c hc => by simp [(hm c hc).2])
  rw [hclean]
  split
  · rename_i hlen
    rw [if_neg (by simpa using hO hlen)]
  · rfl

theorem mem_take_of {l : Str} {n : ℕ} {c : Char} (h : c ∈ l.take n) : c ∈ l :=
  List.mem_of_mem_take h

theorem mem_drop_of {l : Str} {n : ℕ} {c : Char} (h : c ∈ l.drop n) : c ∈ l :=
  List.mem_of_mem_drop h

/-- `normalize_iban` is idempotent. -/
theorem normalize_iban_idem (l : Str) :
    normalize_iban (normalize_iban l) = normalize_iban l := by
  have hclean_mem : ∀ c ∈ (l.map upperChar).filter (fun c => !isSpaceC c),
      upperChar c = c ∧ isSpaceC c = false := by
    intro c hc
    rw [List.mem_filter] at hc
    obtain ⟨hmem, hns⟩ := hc
    rw [List.mem_map] at hmem
    obtain ⟨x, _, rfl⟩ := hmem
    exact ⟨upperChar_idem x, by simpa using hns⟩
  apply normalize_iban_fixed
  · intro c hc
    simp only [normalize_iban] at hc
    split at hc
    · split at hc
      · rcases List.mem_append.mp hc with hc2 | hc2
        · rcases List.mem_append.mp hc2 with hc3 | hc3
          · exact hclean_mem c (mem_take_of hc3)
          · rw [List.mem_map] at hc3
            obtain ⟨x, hx, rfl⟩ := hc3
            by_cases hxo : x = 'O'
            · rw [if_pos hxo]
              exact ⟨by decide, by decide⟩
            · rw [if_neg hxo]
              exact hclean_mem x (mem_drop_of (mem_take_of hx))
        · exact hclean_mem c (mem_drop_of hc2)
      · exact hclean_mem c hc
    · exact hclean_mem c hc
  · intro hlen
    simp only [normalize_iban]
    split
    · rename_i hlen0
      split
      · rename_i hO0
        set cl := (l.map upperChar).filter (fun c => !isSpaceC c) with hcldef
        have htk : (cl.take 2).length = 2 := by
          rw [List.length_take]
          omega
        have hcd : ((cl.drop 2).take 2).length = 2 := by
          rw [List.length_take, List.length_drop]
          omega
        have hmap : (((cl.drop 2).take 2).map
            (fun c => if c = 'O' then '0' else c)).length = 2 := by
          rw [List.length_map]
          exact hcd
        have hgen : ∀ (a b : Str), a.length = 2 → (a ++ b).drop 2 = b := by
          intro a b hab
          rw [← hab, List.drop_left]
        have hgen2 : ∀ (a b : Str), a.length = 2 → (a ++ b).take 2 = a := by
          intro a b hab
          rw [← hab, List.take_left]
        have hdrop2 : ((cl.take 2 ++ ((cl.drop 2).take 2).map
            (fun c => if c = 'O' then '0' else c) ++ cl.drop 4).drop 2)
            = ((cl.drop 2).take 2).map (fun c => if c = 'O' then '0' else c)
              ++ cl.drop 4 := by
          rw [List.append_assoc, hgen _ _ htk]
        rw [hdrop2, hgen2 _ _ hmap]
        intro hcon
        rw [List.mem_map] at hcon
        obtain ⟨x, hx, hfx⟩ := hcon
        by_cases hxo : x = 'O'
        · rw [if_pos hxo] at hfx
          exact absurd hfx (by decide)
        · rw [if_neg hxo] at hfx
          exact hxo hfx
      · rename_i hO0
        simpa using hO0
    · rename_i hlen0
      -- here the result is the short `cleaned`, contradicting `4 ≤ length`
      exact absurd hlen (by
        simp only [normalize_iban] at hlen ⊢
        rw [if_neg hlen0] at hlen ⊢
        omega)

/-! ## `normalize_email` idempotence -/

theorem chainB_snoc_of {R : Char → Char → Bool} {y : Char} :
    ∀ {a : Str}, chainB R a = true →
      (∀ g, a.getLast? = some g → R g y = true) → chainB R (a ++ [y]) = true := by
  intro a
  induction a with
  | nil => intro _ _; rfl
  | cons c rest ih =>
    intro hch hL
    cases rest with
    | nil =>
      simp only [List.cons_append, List.nil_append, chainB_cons_cons, Bool.and_eq_true]
      exact ⟨hL c rfl, rfl⟩
    | cons d rest2 =>
      simp only [List.cons_append, chainB_cons_cons, Bool.and_eq_true] at hch ⊢
      refine ⟨hch.1, ?_⟩
      have := ih hch.2 (fun g hg => hL g (by
        rw [getLast?_cons_ne_nil c (by simp)]
        exact hg))
      simpa using this

theorem chainB_replace_mid {R : Char → Char → Bool} {a tl : Str} {x y : Char}
    (h : chainB R (a ++ x :: tl) = true)
    (hL : ∀ g, a.getLast? = some g → R g y = true)
    (hR : ∀ d, tl.head? = some d → R y d = true) :
    chainB R (a ++ y :: tl) = true := by
  obtain ⟨h1, h2⟩ := chainB_append_mid h
  exact chainB_append_cons (chainB_snoc_of (chainB_append_left h1) hL)
    (chainB_cons_of_head (chainB_tail h2) hR)

theorem set_append_cons (a b : Str) (x c : Char) :
    (a ++ x :: b).set a.length c = a ++ c :: b := by
  induction a with
  | nil => rfl
  | cons d rest ih => simp [List.set_cons_succ, ih]

/-- What a successful `emailFixCheck` tells about the suffix after the `@`. -/
theorem emailFixCheck_spec {after : Str} {rl : ℕ}
    (h : emailFixCheck after = some rl) :
    ∃ run tl, after = run ++ '_' :: tl ∧ run.length = rl ∧ run ≠ []
      ∧ run.all isDomainC = true ∧ tl.all isAlphaC = true ∧ 2 ≤ tl.length := by
  simp only [emailFixCheck] at h
  split at h
  · rename_i u tl hdrop
    split at h
    · rename_i hcond
      obtain ⟨hrun, hu, halpha, hlen⟩ := hcond
      injection h with hrl
      subst hu
      refine ⟨after.takeWhile isDomainC, tl, ?_, hrl, hrun, ?_, halpha, hlen⟩
      · rw [← hdrop, List.takeWhile_append_dropWhile]
      · rw [List.all_eq_true]
        intro x hx
        exact List.mem_takeWhile_imp hx
    · exact absurd h (by simp)
  · exact absurd h (by simp)

/-- What a successful `emailFixFrom` scan tells about the string: it
decomposes as `a ++ '_' :: tl` with the `_` at the returned absolute index,
`tl` at least two letters reaching the end, and `a` ending in `'@'` followed
by a nonempty domain run. -/
theorem emailFixFrom_spec :
    ∀ (l : Str) (back : Option Char) (i0 j : ℕ),
      emailFixFrom l back i0 = some j →
      ∃ a tl, l = a ++ '_' :: tl ∧ i0 + a.length = j
        ∧ tl.all isAlphaC = true ∧ 2 ≤ tl.length
        ∧ ∃ pre run, a = pre ++ '@' :: run ∧ run ≠ [] ∧ run.all isDomainC = true := by
  intro l
  induction l with
  | nil => intro back i0 j h; exact absurd h (by simp [emailFixFrom])
  | cons c rest ih =>
    intro back i0 j h
    simp only [emailFixFrom] at h
    split at h
    · rename_i hcond
      split at h
      · rename_i rl hchk
        injection h with hj
        obtain ⟨run, tl, hrest, hrl, hrun, hdall, halpha, hlen⟩ := emailFixCheck_spec hchk
        rw [Bool.and_eq_true] at hcond
        have hc : c = '@' := by simpa using hcond.1
        subst hc
        refine ⟨'@' :: run, tl, by rw [hrest]; rfl, ?_, halpha, hlen, [], run, rfl, hrun, hdall⟩
        simp only [List.length_cons]
        omega
      · obtain ⟨a, tl, hdec, hj, halpha, hlen, pre, run, ha, hrun, hdall⟩ :=
          ih (some c) (i0 + 1) j h
        refine ⟨c :: a, tl, by rw [hdec]; rfl, ?_, halpha, hlen, c :: pre, run,
          by rw [ha]; rfl, hrun, hdall⟩
        simp only [List.length_cons]
        omega
    · obtain ⟨a, tl, hdec, hj, halpha, hlen, pre, run, ha, hrun, hdall⟩ :=
        ih (some c) (i0 + 1) j h
      refine ⟨c :: a, tl, by rw [hdec]; rfl, ?_, halpha, hlen, c :: pre, run,
        by rw [ha]; rfl, hrun, hdall⟩
      simp only [List.length_cons]
      omega

theorem getElem?_append_len (a b : Str) (x : Char) :
    (a ++ x :: b)[a.length]? = some x := by
  induction a with
  | nil => simp
  | cons c rest ih => simpa using ih

theorem drop_append_len (a b : Str) (x : Char) :
    (a ++ x :: b).drop (a.length + 1) = b := by
  induction a with
  | nil => rfl
  | cons c rest ih => simpa using ih

/-- After the suffix rewrite has replaced the `_` by `.`, no position of the
result matches the rewrite pattern again. -/
theorem emailFixFrom_none_fixed {a tl : Str} (htl : tl.all isAlphaC = true) :
    emailFixFrom (a ++ '.' :: tl) none 0 = none := by
  cases hscan : emailFixFrom (a ++ '.' :: tl) none 0 with
  | none => rfl
  | some j =>
    exfalso
    obtain ⟨a2, tl2, hdec, hj, halpha2, hlen2, _⟩ :=
      emailFixFrom_spec _ _ _ _ hscan
    rcases lt_trichotomy a2.length a.length with hlt | heq | hgt
    · have h1 : (a ++ '.' :: tl)[a.length]? = some '.' := getElem?_append_len a tl '.'
      have h2 : tl2 = (a ++ '.' :: tl).drop (a2.length + 1) := by
        rw [hdec, drop_append_len]
      have h3 : tl2[a.length - a2.length - 1]? = some '.' := by
        rw [h2, List.getElem?_drop]
        have harith : a2.length + 1 + (a.length - a2.length - 1) = a.length := by omega
        rw [harith, h1]
      have hmem := List.getElem?_mem h3
      rw [List.all_eq_true] at halpha2
      exact absurd (halpha2 '.' hmem) (by decide)
    · have h1 : (a ++ '.' :: tl)[a.length]? = some '.' := getElem?_append_len a tl '.'
      have h2 : (a2 ++ '_' :: tl2)[a2.length]? = some '_' := getElem?_append_len a2 tl2 '_'
      rw [← hdec, heq, h1] at h2
      exact absurd h2 (by decide)
    · have h2 : (a ++ '.' :: tl)[a2.length]? = some '_' := by
        rw [hdec]
        exact getElem?_append_len a2 tl2 '_'
      have h3 : tl[a2.length - a.length - 1]? = some '_' := by
        have h4 : (a ++ '.' :: tl).drop (a.length + 1) = tl := drop_append_len a tl '.'
        rw [← h4, List.getElem?_drop]
        have harith : a.length + 1 + (a2.length - a.length - 1) = a2.length := by omega
        rw [harith, h2]
      have hmem := List.getElem?_mem h3
      rw [List.all_eq_true] at htl
      exact absurd (htl '_' hmem) (by decide)

/-! ## `normalize_email` idempotence -/

theorem okPairB_of_right {p : Char → Bool} {x : Char}
    (h1 : p x = false) (h2 : isSpaceC x = false) (c : Char) : okPairB p c x = true := by
  unfold okPairB
  rw [h1, h2]
  simp

theorem okPairB_of_left {p : Char → Bool} {x : Char}
    (h1 : p x = false) (h2 : isSpaceC x = false) (c : Char) : okPairB p x c = true := by
  unfold okPairB
  rw [h1, h2]
  simp

theorem isSpaceC_toNat {c : Char} (h : isSpaceC c = true) : c.toNat ≤ 32 := by
  unfold isSpaceC at h
  simp only [Bool.or_eq_true, decide_eq_true_eq] at h
  rcases h with ((((h | h) | h) | h) | h) | h <;> (subst h; decide)

theorem isAlnumC_toNat {c : Char} (h : isAlnumC c = true) : 48 ≤ c.toNat := by
  unfold isAlnumC isAlphaC isDigitC isUpperC isLowerC at h
  simp only [Bool.or_eq_true, Bool.and_eq_true, decide_eq_true_eq] at h
  rcases h with (⟨h1, _⟩ | ⟨h1, _⟩) | ⟨h1, _⟩ <;>
    (rw [char_le_iff] at h1; exact le_trans (by decide) h1)

theorem alnum_not_space {c : Char} (h : isAlnumC c = true) : isSpaceC c = false := by
  cases hs : isSpaceC c with
  | false => rfl
  | true =>
    exfalso
    have h1 := isSpaceC_toNat hs
    have h2 := isAlnumC_toNat h
    omega

theorem isDomainC_not_space {c : Char} (h : isDomainC c = true) : isSpaceC c = false := by
  unfold isDomainC at h
  simp only [Bool.or_eq_true, decide_eq_true_eq] at h
  rcases h with (h | h) | h
  · exact alnum_not_space h
  · subst h; decide
  · subst h; decide

theorem isAlphaC_not_space {c : Char} (h : isAlphaC c = true) : isSpaceC c = false :=
  alnum_not_space (by unfold isAlnumC; rw [h]; rfl)

theorem isAtC_not_space : ∀ c, isAtC c = true → isSpaceC c = false := by
  intro c hc
  have hcc : c = '@' := by simpa [isAtC] using hc
  subst hcc
  decide

theorem isDotC_not_space : ∀ c, isDotC c = true → isSpaceC c = false := by
  intro c hc
  have hcc : c = '.' := by simpa [isDotC] using hc
  subst hcc
  decide

theorem isUndC_not_space : ∀ c, isUndC c = true → isSpaceC c = false := by
  intro c hc
  have hcc : c = '_' := by simpa [isUndC] using hc
  subst hcc
  decide

theorem isDotC_not_at : ∀ c, isDotC c = true → isAtC c = false := by
  intro c hc
  have hcc : c = '.' := by simpa [isDotC] using hc
  subst hcc
  decide

theorem isUndC_not_at : ∀ c, isUndC c = true → isAtC c = false := by
  intro c hc
  have hcc : c = '_' := by simpa [isUndC] using hc
  subst hcc
  decide

theorem isUndC_not_dot : ∀ c, isUndC c = true → isDotC c = false := by
  intro c hc
  have hcc : c = '_' := by simpa [isUndC] using hc
  subst hcc
  decide

/-- A `subAround q` pass preserves the `okPairB p` chain when the `q`-class is
disjoint from both the `p`-class and whitespace. -/
theorem subAround_chain_pres_ok {p q : Char → Bool}
    (hq1 : ∀ d, q d = true → p d = false)
    (hq2 : ∀ d, q d = true → isSpaceC d = false) {l : Str}
    (h : chainB (okPairB p) l = true) :
    chainB (okPairB p) (subAround q l) = true :=
  subAround_chain_pres
    (fun c d hd => okPairB_of_right (hq1 d hd) (hq2 d hd) c)
    (fun c d hc => okPairB_of_left (hq1 c hc) (hq2 c hc) d)
    h

/-- A `subAround q` pass preserves no-double-spaces when the `q`-class has no
whitespace. -/
theorem subAround_chain_noDouble {q : Char → Bool}
    (hq : ∀ d, q d = true → isSpaceC d = false) {l : Str}
    (h : chainB noDoubleR l = true) :
    chainB noDoubleR (subAround q l) = true :=
  subAround_chain_pres
    (fun c d hd => noDouble_ok_of_not_space_right (hq d hd))
    (fun c d hc => noDouble_ok_of_not_space_left (hq c hc))
    h

/-- The string fed to the suffix rewrite inside `normalize_email`. -/
def emailStage (l : Str) : Str :=
  subAround isUndC (subAround isDotC (subAround isAtC (normalize_spaces l)))

/-- Structural facts about `emailStage l`: whitespace-normalized, with no
whitespace adjacent to `@`, `.` or `_`. -/
theorem emailStage_facts (l : Str) :
    noTabs (emailStage l) = true ∧ chainB noDoubleR (emailStage l) = true
      ∧ startsOk (emailStage l) = true ∧ endsOk (emailStage l) = true
      ∧ chainB (okPairB isAtC) (emailStage l) = true
      ∧ chainB (okPairB isDotC) (emailStage l) = true
      ∧ chainB (okPairB isUndC) (emailStage l) = true := by
  unfold emailStage
  refine ⟨?_, ?_, ?_, ?_, ?_, ?_, ?_⟩
  · exact all_subAround (all_subAround (all_subAround (noTabs_normalize_spaces l)))
  · exact subAround_chain_noDouble isUndC_not_space
      (subAround_chain_noDouble isDotC_not_space
        (subAround_chain_noDouble isAtC_not_space (chain_noDouble_normalize_spaces l)))
  · exact startsOk_subAround isUndC_not_space
      (startsOk_subAround isDotC_not_space
        (startsOk_subAround isAtC_not_space (startsOk_normalize_spaces l)))
  · exact endsOk_subAround isUndC_not_space
      (endsOk_subAround isDotC_not_space
        (endsOk_subAround isAtC_not_space (endsOk_normalize_spaces l)))
  · exact subAround_chain_pres_ok isUndC_not_at isUndC_not_space
      (subAround_chain_pres_ok isDotC_not_at isDotC_not_space
        (subAround_chain_self isAtC_not_space _))
  · exact subAround_chain_pres_ok isUndC_not_dot isUndC_not_space
      (subAround_chain_self isDotC_not_space _)
  · exact subAround_chain_self isUndC_not_space _

/-- `normalize_email` is the identity on a string that is already
whitespace-normalized, has no whitespace adjacent to `@`, `.` or `_`, and
offers no spot for the suffix rewrite. -/
theorem normalize_email_fixed {r : Str} (ht : noTabs r = true)
    (hd : hasDouble r = false) (hs : startsOk r = true) (he : endsOk r = true)
    (hat : chainB (okPairB isAtC) r = true)
    (hdot : chainB (okPairB isDotC) r = true)
    (hund : chainB (okPairB isUndC) r = true)
    (hfix : emailFixFrom r none 0 = none) :
    normalize_email r = r := by
  unfold normalize_email
  rw [normalize_spaces_eq_self ht hd hs he,
    subAround_eq_self hat, subAround_eq_self hdot, subAround_eq_self hund]
  unfold emailSuffixFix
  rw [hfix]

/-- `normalize_email` is idempotent. -/
theorem normalize_email_idem (l : Str) :
    normalize_email (normalize_email l) = normalize_email l := by
  obtain ⟨ht, hd, hs, he, hat, hdot, hund⟩ := emailStage_facts l
  have hne : normalize_email l = emailSuffixFix (emailStage l) := rfl
  cases hscan : emailFixFrom (emailStage l) none 0 with
  | none =>
    have hr : normalize_email l = emailStage l := by
      rw [hne]
      unfold emailSuffixFix
      rw [hscan]
    rw [hr]
    exact normalize_email_fixed ht (by rw [hasDouble_eq_chainB, hd]; rfl) hs he
      hat hdot hund hscan
  | some j =>
    obtain ⟨a, tl, hdec, hj, halpha, hlen, pre, run, ha, hrun, hdall⟩ :=
      emailFixFrom_spec _ _ _ _ hscan
    have hjj : j = a.length := by omega
    have hr : normalize_email l = a ++ '.' :: tl := by
      rw [hne]
      unfold emailSuffixFix
      rw [hscan, hjj, hdec]
      exact set_append_cons a tl '_' '.'
    have hane : a ≠ [] := by rw [ha]; simp
    have htlne : tl ≠ [] := List.ne_nil_of_length_pos (by omega)
    have hga : ∀ g, a.getLast? = some g → isSpaceC g = false := by
      intro g hg
      have hlast : a.getLast? = run.getLast? := by
        rw [ha, List.getLast?_append_of_ne_nil _ (by simp : ('@' :: run : Str) ≠ []),
          getLast?_cons_ne_nil _ hrun]
      rw [hlast] at hg
      have hmem : g ∈ run := by
        obtain ⟨hne2, heq⟩ := List.mem_getLast?_eq_getLast
          (show g ∈ run.getLast? from by rw [hg]; rfl)
        rw [heq]
        exact List.getLast_mem hne2
      rw [List.all_eq_true] at hdall
      exact isDomainC_not_space (hdall g hmem)
    have hdh : ∀ d, tl.head? = some d → isSpaceC d = false := by
      intro d hd2
      have hmem : d ∈ tl := List.mem_of_mem_head? hd2
      rw [List.all_eq_true] at halpha
      exact isAlphaC_not_space (halpha d hmem)
    have htr : noTabs (a ++ '.' :: tl) = true := by
      rw [hdec] at ht
      unfold noTabs at ht ⊢
      rw [List.all_eq_true] at ht ⊢
      intro x hx
      rcases List.mem_append.mp hx with hxa | hxc
      · exact ht x (List.mem_append_left _ hxa)
      · rcases List.mem_cons.mp hxc with hxe | hxt
        · subst hxe; decide
        · exact ht x (List.mem_append_right _ (List.mem_cons_of_mem _ hxt))
    have hdr : chainB noDoubleR (a ++ '.' :: tl) = true := by
      rw [hdec] at hd
      exact chainB_replace_mid hd
        (fun g _ => noDouble_ok_of_not_space_right (by decide))
        (fun d _ => noDouble_ok_of_not_space_left (by decide))
    have hsr : startsOk (a ++ '.' :: tl) = true := by
      rw [hdec] at hs
      unfold startsOk at hs ⊢
      have h1 : a.head? = (a ++ '.' :: tl).head? := head?_prefix_ne_nil ⟨'.' :: tl, rfl⟩ hane
      have h2 : a.head? = (a ++ '_' :: tl).head? := head?_prefix_ne_nil ⟨'_' :: tl, rfl⟩ hane
      rw [← h1]
      rw [← h2] at hs
      exact hs
    have her : endsOk (a ++ '.' :: tl) = true := by
      rw [hdec] at he
      unfold endsOk at he ⊢
      have h1 : (a ++ '.' :: tl).getLast? = tl.getLast? := by
        rw [List.getLast?_append_of_ne_nil _ (by simp : ('.' :: tl : Str) ≠ []),
          getLast?_cons_ne_nil _ htlne]
      have h2 : (a ++ '_' :: tl).getLast? = tl.getLast? := by
        rw [List.getLast?_append_of_ne_nil _ (by simp : ('_' :: tl : Str) ≠ []),
          getLast?_cons_ne_nil _ htlne]
      rw [h1]
      rw [h2] at he
      exact he
    have hatr : chainB (okPairB isAtC) (a ++ '.' :: tl) = true := by
      rw [hdec] at hat
      exact chainB_replace_mid hat
        (fun g _ => okPairB_of_right (by decide) (by decide) g)
        (fun d _ => okPairB_of_left (by decide) (by decide) d)
    have hdotr : chainB (okPairB isDotC) (a ++ '.' :: tl) = true := by
      rw [hdec] at hdot
      apply chainB_replace_mid hdot
      · intro g hg
        unfold okPairB
        rw [hga g hg, (by decide : isSpaceC '.' = false)]
        simp
      · intro d hd2
        unfold okPairB
        rw [hdh d hd2, (by decide : isSpaceC '.' = false)]
        simp
    have hundr : chainB (okPairB isUndC) (a ++ '.' :: tl) = true := by
      rw [hdec] at hund
      exact chainB_replace_mid hund
        (fun g _ => okPairB_of_right (by decide) (by decide) g)
        (fun d _ => okPairB_of_left (by decide) (by decide) d)
    rw [hr]
    exact normalize_email_fixed htr (by rw [hasDouble_eq_chainB, hdr]; rfl) hsr her
      hatr hdotr hundr (emailFixFrom_none_fixed halpha)

/-- C7: for every entity type, applying the type's normalizer twice gives the
same result as applying it once: `normalize_entity` is idempotent. -/
theorem c7_normalize_idempotent (t : EntityType) (s : Str) :
    normalize_entity t (normalize_entity t s) = normalize_entity t s := by
  cases t with
  | date => exact normalize_date_token_idem s
  | iban => exact normalize_iban_idem s
  | phone => exact normalize_phone_idem s
  | email => exact normalize_email_idem s

/-! ## C1: IBAN format and checksum scoring -/

/-- The checksum exactly as the specification words it: move the first four
characters to the end, spell each letter as the decimal numeral of
`ord(letter) - 55`, read the resulting digit string as one number, and ask for
remainder `1` modulo `97`. -/
def ibanChecksumSpec (ib : Str) : Bool :=
  let rearranged := ib.drop 4 ++ ib.take 4
  let converted := rearranged.foldl
    (fun acc c =>
      if isDigitC c then acc ++ [c] else acc ++ Nat.toDigits 10 (c.toNat - 55))
    []
  (converted.foldl (fun n c => n * 10 + (c.toNat - 48)) 0) % 97 == 1

/-- Incremental reduction modulo 97 agrees with reducing the whole decimal
value at the end. -/
theorem foldl_mod_97 (ds : List Char) : ∀ (r n : ℕ), r = n % 97 →
    ds.foldl (fun r c => (r * 10 + (c.toNat - 48)) % 97) r
      = (ds.foldl (fun n c => n * 10 + (c.toNat - 48)) n) % 97 := by
  induction ds with
  | nil => intro r n h; simpa using h
  | cons c rest ih =>
    intro r n h
    simp only [List.foldl_cons]
    apply ih
    subst h
    exact ((Nat.mod_modEq n 97).mul_right 10).add_right (c.toNat - 48)

/-- The code's incremental checksum equals the specification's big-number
checksum on a normalization-stable format-correct string. -/
theorem iban_checksum_ok_eq_spec {ib : Str} (hfix : normalize_iban ib = ib)
    (h : iban_regex_match ib = true) :
    iban_checksum_ok ib = ibanChecksumSpec ib := by
  simp only [iban_checksum_ok, ibanChecksumSpec, hfix, h, Bool.not_true,
    Bool.false_eq_true, if_false]
  rw [foldl_mod_97 _ 0 0 rfl]

/-- C1: whenever the IBAN normalization of `s` matches the strict format regex
`[A-Z]{2}\d\x7b2\x7d[A-Z0-9]{11,30}`, `score_iban s` reports `is_valid = true`;
its score is `1.0` exactly when the ISO 7064 mod-97 checksum of the
specification (move the first 4 characters to the end, map each letter to
`ord(letter) - 55`, reduce the digit string modulo 97, remainder 1) passes,
and `0.7` exactly when that checksum fails. -/
theorem c1_iban_format_score (s : Str)
    (h : iban_regex_match (normalize_iban s) = true) :
    (score_iban s).1 = true
      ∧ ((score_iban s).2 = 1 ↔ ibanChecksumSpec (normalize_iban s) = true)
      ∧ ((score_iban s).2 = 7/10 ↔ ibanChecksumSpec (normalize_iban s) = false) := by
  have hck : iban_checksum_ok (normalize_iban s) = ibanChecksumSpec (normalize_iban s) :=
    iban_checksum_ok_eq_spec (normalize_iban_idem s) h
  have hsc : (score_iban s).2
      = if ibanChecksumSpec (normalize_iban s) then (1 : ℚ) else 7/10 := by
    simp only [score_iban, h, if_true, hck]
  refine ⟨by simp only [score_iban, h, if_true], ?_, ?_⟩ <;>
    (cases hc : ibanChecksumSpec (normalize_iban s) <;>
      (rw [hc] at hsc; simp at hsc; rw [hsc]; norm_num))

theorem c1_iban_format_score_witness :
    iban_regex_match (normalize_iban ("DE89370400440532013000".data)) = true
      ∧ ((score_iban ("DE89370400440532013000".data)).1 = true
        ∧ ((score_iban ("DE89370400440532013000".data)).2 = 1
            ↔ ibanChecksumSpec (normalize_iban ("DE89370400440532013000".data)) = true)
        ∧ ((score_iban ("DE89370400440532013000".data)).2 = 7/10
            ↔ ibanChecksumSpec (normalize_iban ("DE89370400440532013000".data)) = false)) :=
  ⟨by decide, c1_iban_format_score _ (by decide)⟩

/-! ## C2: email repair score -/

set_option maxRecDepth 8000

/-- Folding with a strict-improvement test is folding with `max`. -/
theorem foldl_if_lt_eq_max (g : Str → ℚ) :
    ∀ (l : List Str) (a : ℚ),
      l.foldl (fun best c => if best < g c then g c else best) a
        = l.foldl (fun best c => max best (g c)) a := by
  intro l
  induction l with
  | nil => intro a; rfl
  | cons x xs ih =>
    intro a
    simp only [List.foldl_cons]
    rw [ih]
    congr 1
    rcases le_or_lt (g x) a with hle | hlt
    · rw [if_neg (not_lt.mpr hle), max_eq_left hle]
    · rw [if_pos hlt, max_eq_right (le_of_lt hlt)]

/-- A seed already folded in can be pulled out of a `max`-fold. -/
theorem foldl_max_out : ∀ (xs : List ℚ) (a x : ℚ),
    xs.foldl max (max a x) = max a (xs.foldl max x) := by
  intro xs
  induction xs with
  | nil => intro a x; rfl
  | cons y ys ih =>
    intro a x
    simp only [List.foldl_cons]
    rw [max_assoc]
    exact ih a (max x y)

/-- A `max`-fold over a nonempty list pulls out its seed. -/
theorem foldl_max_cons (x : ℚ) (xs : List ℚ) (a : ℚ) :
    (x :: xs).foldl max a = max a (xs.foldl max x) := by
  simp only [List.foldl_cons]
  exact foldl_max_out xs a x

/-- Best similarity is one minus the least normalized distance. -/
theorem foldl_max_one_sub (f : Str → ℚ) :
    ∀ (xs : List Str) (a : ℚ),
      (xs.map (fun c => 1 - f c)).foldl max (1 - a)
        = 1 - (xs.map f).foldl min a := by
  intro xs
  induction xs with
  | nil => intro a; rfl
  | cons y ys ih =>
    intro a
    simp only [List.map_cons, List.foldl_cons]
    rw [max_sub_sub_left, ih]

/-- `clamp_score` ignores a pre-applied floor at `0`. -/
theorem clamp_score_max_zero (v : ℚ) : clamp_score (max 0 v) = clamp_score v := by
  unfold clamp_score
  rcases le_total v 0 with h | h
  · rw [max_eq_left h, min_eq_right (by norm_num : (0:ℚ) ≤ 1),
      max_eq_left (le_refl (0:ℚ)), max_eq_left (le_trans (min_le_right 1 v) h)]
  · rw [max_eq_right h]

/- Concrete evaluations are checked by the kernel; the arithmetic of `ℚ` must
be unfoldable for that, so the wrapper sections below lift, locally, the
irreducibility of the four base `Rat` operations. -/

section
attribute [local semireducible] Rat.mul Rat.inv Rat.add Rat.sub

/-- C2 counterexample: on input `"aaa_a"` the grammar fails and the candidate
set is nonempty, the least edit distance over the candidate set is `3` with
the unique minimizer `"a@a.aa"` of length `6`, so the claimed score would be
`clamp(1 - 3/6) = 1/2`; but `score_email` actually returns `5/9`. -/
theorem c2_counterexample :
    email_regex_match (normalize_email ("aaa_a".data)) = false
      ∧ email_candidates (normalize_email ("aaa_a".data)) ≠ []
      ∧ (email_candidates (normalize_email ("aaa_a".data))).all
          (fun c => decide (3 ≤ edit_distance (normalize_email ("aaa_a".data)) c)) = true
      ∧ (email_candidates (normalize_email ("aaa_a".data))).filter
          (fun c => edit_distance (normalize_email ("aaa_a".data)) c == 3)
        = ["a@a.aa".data]
      ∧ clamp_score (1 - (3 : ℚ) / ((max ("a@a.aa".data).length 1 : ℕ) : ℚ)) = 1/2
      ∧ score_email ("aaa_a".data) = (false, 5/9)
      ∧ ¬ ((5 : ℚ)/9 = 1/2) := by
  refine ⟨by decide, by decide, by decide, by decide, by norm_num [clamp_score], by decide,
    by norm_num⟩

end

/-- The code's strict-improvement fold over candidates computes the floor at
`0` of one minus the least normalized distance. -/
theorem code_best_eq (f : Str → ℚ) (x : Str) (xs : List Str) :
    (x :: xs).foldl (fun best c => if best < 1 - f c then 1 - f c else best) 0
      = max 0 (1 - qMin ((x :: xs).map f)) := by
  rw [foldl_if_lt_eq_max (fun c => 1 - f c)]
  rw [← List.foldl_map (fun c => 1 - f c) max (x :: xs) 0]
  simp only [List.map_cons]
  rw [foldl_max_cons]
  rw [foldl_max_one_sub f xs (f x)]
  simp only [qMin]

/-- C2, amended: when the grammar fails and candidates exist, the score is
`1` minus the least over all candidates `c` of
`edit_distance(cleaned, c) / max(len c, 1)`, clamped to `[0, 1]` — the
minimization is over the normalized distance, not the raw distance of a
minimum-distance candidate. -/
theorem c2_email_score_amended (s : Str)
    (h1 : email_regex_match (normalize_email s) = false)
    (h2 : email_candidates (normalize_email s) ≠ []) :
    score_email s
      = (false, clamp_score (1 - qMin ((email_candidates (normalize_email s)).map
          (fun c => ((edit_distance (normalize_email s) c : ℕ) : ℚ)
            / ((max c.length 1 : ℕ) : ℚ))))) := by
  obtain ⟨x, xs, hL⟩ : ∃ x xs, email_candidates (normalize_email s) = x :: xs := by
    cases hL : email_candidates (normalize_email s) with
    | nil => exact absurd hL h2
    | cons x xs => exact ⟨x, xs, rfl⟩
  simp only [score_email, h1, Bool.false_eq_true, if_false, hL]
  rw [if_neg (by simp : (x :: xs : List Str) ≠ [])]
  rw [code_best_eq (fun c => ((edit_distance (normalize_email s) c : ℕ) : ℚ)
    / ((max c.length 1 : ℕ) : ℚ)) x xs]
  rw [clamp_score_max_zero]

section
attribute [local semireducible] Rat.mul Rat.inv Rat.add Rat.sub

theorem c2_email_score_amended_witness :
    email_regex_match (normalize_email ("a@bc".data)) = false
      ∧ email_candidates (normalize_email ("a@bc".data)) ≠ []
      ∧ score_email ("a@bc".data)
        = (false, clamp_score (1 - qMin ((email_candidates (normalize_email ("a@bc".data))).map
            (fun c => ((edit_distance (normalize_email ("a@bc".data)) c : ℕ) : ℚ)
              / ((max c.length 1 : ℕ) : ℚ))))) :=
  ⟨by decide, by decide, c2_email_score_amended _ (by decide) (by decide)⟩

end

/-! ## C3: the `"john.doe@example com"` example -/

section
attribute [local semireducible] Rat.mul Rat.inv Rat.add Rat.sub

/-- C3 counterexample: on `"john.doe@example com"` the email scorer returns
`(false, 0)` — the repair-candidate set is empty, because no generated
candidate passes the strict grammar — so the per-type email score is `0` and
in particular not greater than `0.8` as claimed. -/
theorem c3_counterexample :
    score_email ("john.doe@example com".data) = (false, 0)
      ∧ email_candidates (normalize_email ("john.doe@example com".data)) = []
      ∧ (classify_text ("john.doe@example com".data)).email = (false, 0)
      ∧ ¬ ((8 : ℚ)/10 < 0) :=
  ⟨by decide, by decide, by decide, by norm_num⟩

/-- C3, amended: on `"john.doe@example com"` the email scorer reports
invalid with score exactly `0` (its candidate set is empty), and `classify`
reports the email component as `(false, 0)`. -/
theorem c3_email_classify_amended :
    (classify_text ("john.doe@example com".data)).email = (false, 0)
      ∧ score_email ("john.doe@example com".data) = (false, 0)
      ∧ (score_email ("john.doe@example com".data)).1 = false :=
  ⟨by decide, by decide, by decide⟩

end

/-! ## C4: the clusterer's vertical-overlap denominator -/

/-- The overlap formula exactly as the specification words it: the denominator
is the smaller height *floored at `1.0`*, i.e. never less than `1`. -/
def c4ClaimFormula (lineBox itemBox : Box) : ℚ :=
  max 0 (min lineBox.max_y itemBox.max_y - max lineBox.min_y itemBox.min_y)
    / max 1 (min lineBox.height itemBox.height)

section
attribute [local semireducible] Rat.mul Rat.inv Rat.add Rat.sub

/-- C4 counterexample: for a box of height `1/2` compared with itself, the
code's `or 1.0` keeps the denominator `1/2` (only an exact `0` is replaced),
giving ratio `1`, while the claimed floor-at-`1` denominator gives `1/2`. -/
theorem c4_counterexample :
    overlap_frac (Box.mk 0 1 0 (1/2) (1/2)) (Box.mk 0 1 0 (1/2) (1/2)) = 1
      ∧ c4ClaimFormula (Box.mk 0 1 0 (1/2) (1/2)) (Box.mk 0 1 0 (1/2) (1/2)) = 1/2
      ∧ ¬ ((1 : ℚ) = 1/2) :=
  ⟨by decide, by decide, by norm_num⟩

end

/-- C4, amended: the denominator is the smaller height with an exact `0`
replaced by `1` (Python's `or 1.0` on a falsy float); the claimed
floor-at-`1` reading agrees with the code exactly when the smaller height is
`0` or at least `1`. -/
theorem c4_overlap_amended (lb ib : Box)
    (h : min lb.height ib.height = 0 ∨ 1 ≤ min lb.height ib.height) :
    overlap_frac lb ib = c4ClaimFormula lb ib := by
  unfold overlap_frac c4ClaimFormula
  rcases h with h | h
  · rw [if_pos h, h, max_eq_left (by norm_num : (0:ℚ) ≤ 1)]
  · rw [if_neg (by intro h0; rw [h0] at h; norm_num at h), max_eq_right h]

section
attribute [local semireducible] Rat.mul Rat.inv Rat.add Rat.sub

theorem c4_overlap_amended_witness :
    (min (Box.mk 0 1 0 2 2).height (Box.mk 0 1 0 2 2).height = 0
        ∨ 1 ≤ min (Box.mk 0 1 0 2 2).height (Box.mk 0 1 0 2 2).height)
      ∧ overlap_frac (Box.mk 0 1 0 2 2) (Box.mk 0 1 0 2 2)
          = c4ClaimFormula (Box.mk 0 1 0 2 2) (Box.mk 0 1 0 2 2) :=
  ⟨Or.inr (by decide), c4_overlap_amended _ _ (Or.inr (by decide))⟩

end

/-! ## C5: the `require_valid` filter -/

/-- A surviving match of `processMatch` with `require_valid` set passed the
`is_valid_entity` test (not merely the scorer's flag). -/
theorem processMatch_valid {tokens : List Token} {offsets : List (ℕ × ℕ × ℕ)}
    {t : EntityType} {ms : Option ℚ} {m : MatchInfo} {r : EntityResult}
    (h : processMatch tokens offsets t ms true m = some r) :
    is_valid_entity t r.value = true := by
  simp only [processMatch] at h
  split at h
  · exact absurd h (by simp)
  · split at h
    · exact absurd h (by simp)
    · rename_i h2
      split at h
      · exact absurd h (by simp)
      · injection h with h3
        have hv : is_valid_entity t m.normalized = true := by
          revert h2
          cases hvv : is_valid_entity t m.normalized <;> simp
        rw [← h3]
        exact hv

theorem mem_dedupeGo : ∀ (l : List EntityResult) (seen : List (Str × ℚ × ℚ × ℚ × ℚ))
    (r : EntityResult), r ∈ dedupeGo l seen → r ∈ l := by
  intro l
  induction l with
  | nil => intro seen r h; simp [dedupeGo] at h
  | cons x rest ih =>
    intro seen r h
    simp only [dedupeGo] at h
    split at h
    · exact List.mem_cons_of_mem x (ih _ _ h)
    · rcases List.mem_cons.mp h with h1 | h1
      · exact h1 ▸ List.mem_cons_self x rest
      · exact List.mem_cons_of_mem x (ih _ _ h1)

theorem locateRaw_mem_valid (t : EntityType) (ms : Option ℚ) :
    ∀ (lines : List Line) (acc : List EntityResult) (r : EntityResult),
      r ∈ lines.foldl
        (fun acc line =>
          let q := line_text_and_offsets line.items
          acc ++ (find_matches_for_type q.1 t).filterMap
            (processMatch line.items q.2 t ms true)) acc →
      r ∈ acc ∨ is_valid_entity t r.value = true := by
  intro lines
  induction lines with
  | nil => intro acc r h; exact Or.inl h
  | cons ln rest ih =>
    intro acc r h
    simp only [List.foldl_cons] at h
    rcases ih _ r h with hacc | hval
    · rcases List.mem_append.mp hacc with h1 | h2
      · exact Or.inl h1
      · right
        obtain ⟨m, _, hm⟩ := List.mem_filterMap.mp h2
        exact processMatch_valid hm
    · exact Or.inr hval

section
attribute [local semireducible] Rat.mul Rat.inv Rat.add Rat.sub

/-- C5 counterexample: `"DE89370400440532013001"` is a format-correct IBAN
with a failing checksum, so the scorer reports it *valid* with score `0.7`;
yet with `require_valid` set the locator discards it (the same call without
`require_valid` keeps it), because the filter uses `is_valid_entity`, which
for IBANs also demands the checksum. -/
theorem c5_counterexample :
    score_entity .iban ("DE89370400440532013001".data) = (true, 7/10)
      ∧ locate_entities_in_lines
          [Line.mk [Token.mk ("DE89370400440532013001".data) (9/10) (Box.mk 0 10 0 2 2)]
            (Box.mk 0 10 0 2 2)] .iban none true = []
      ∧ locate_entities_in_lines
          [Line.mk [Token.mk ("DE89370400440532013001".data) (9/10) (Box.mk 0 10 0 2 2)]
            (Box.mk 0 10 0 2 2)] .iban none false ≠ [] :=
  ⟨by decide, by decide, by decide⟩

end

/-- C5, amended: with `require_valid` set, every result the locator returns
passes `is_valid_entity` — the filter is the validator, not the scorer's
`is_valid` flag, and for IBANs the validator additionally requires the mod-97
checksum. -/
theorem c5_locate_requires_validity (lines : List Line) (t : EntityType)
    (ms : Option ℚ) (r : EntityResult)
    (hr : r ∈ locate_entities_in_lines lines t ms true) :
    is_valid_entity t r.value = true := by
  have h1 : r ∈ dedupe_results (locateRaw lines t ms true) :=
    (List.perm_insertionSort resLE _).subset hr
  have h2 : r ∈ locateRaw lines t ms true := mem_dedupeGo _ _ _ h1
  rcases locateRaw_mem_valid t ms lines [] r h2 with h3 | h3
  · simp at h3
  · exact h3

section
attribute [local semireducible] Rat.mul Rat.inv Rat.add Rat.sub

theorem c5_locate_requires_validity_witness :
    (EntityResult.mk ("DE89370400440532013000".data) ("DE89370400440532013000".data)
        (BBox.mk 0 0 10 2) (9/10) 1 true .iban)
      ∈ locate_entities_in_lines
          [Line.mk [Token.mk ("DE89370400440532013000".data) (9/10) (Box.mk 0 10 0 2 2)]
            (Box.mk 0 10 0 2 2)] .iban none true
      ∧ is_valid_entity .iban
          (EntityResult.mk ("DE89370400440532013000".data) ("DE89370400440532013000".data)
            (BBox.mk 0 0 10 2) (9/10) 1 true .iban).value = true :=
  ⟨by decide,
    c5_locate_requires_validity
      [Line.mk [Token.mk ("DE89370400440532013000".data) (9/10) (Box.mk 0 10 0 2 2)]
        (Box.mk 0 10 0 2 2)] .iban none
      (EntityResult.mk ("DE89370400440532013000".data) ("DE89370400440532013000".data)
        (BBox.mk 0 0 10 2) (9/10) 1 true .iban) (by decide)⟩

end

/-! ## C6: the line clusterer -/

/-- One clustering step exactly as the specification words it: compute every
existing line's overlap ratio with the token, and if the highest ratio is at
least the threshold, add the token to the earliest line attaining that
highest ratio; otherwise open a new line with just this token. -/
def c6SpecStep (thresh : ℚ) (lines : List Line) (item : Token) : List Line :=
  let rs := lines.map (fun ln => overlap_frac ln.box item.box)
  if thresh ≤ qMax rs then
    updateAt (rs.findIdx (fun r => decide (qMax rs ≤ r))) (addToLine item) lines
  else lines ++ [{ items := [item], box := item.box }]

theorem le_foldl_max : ∀ (rs : List ℚ) (b : ℚ), b ≤ rs.foldl max b := by
  intro rs
  induction rs with
  | nil => intro b; exact le_refl b
  | cons r rest ih =>
    intro b
    simp only [List.foldl_cons]
    exact le_trans (le_max_left b r) (ih (max b r))

/-- The pure scan underlying `pickBest`, on the list of ratios. -/
def scanMax : List ℚ → ℕ → ℚ → Option ℕ → ℚ × Option ℕ
  | [], _, best, m => (best, m)
  | r :: rest, idx, best, m =>
    if best < r then scanMax rest (idx + 1) r (some idx)
    else scanMax rest (idx + 1) best m

theorem pickBest_eq_scanMax (itemBox : Box) :
    ∀ (ls : List Line) (idx : ℕ) (b : ℚ) (m : Option ℕ),
      pickBest itemBox ls idx b m
        = scanMax (ls.map (fun ln => overlap_frac ln.box itemBox)) idx b m := by
  intro ls
  induction ls with
  | nil => intro idx b m; rfl
  | cons ln rest ih =>
    intro idx b m
    simp only [pickBest, scanMax, List.map_cons]
    by_cases hb : b < overlap_frac ln.box itemBox
    · rw [if_pos hb, if_pos hb, ih]
    · rw [if_neg hb, if_neg hb, ih]

/-- The scan's running best is the `max`-fold of the ratios. -/
theorem scanMax_fst : ∀ (rs : List ℚ) (idx : ℕ) (b : ℚ) (m : Option ℕ),
    (scanMax rs idx b m).1 = rs.foldl max b := by
  intro rs
  induction rs with
  | nil => intro idx b m; rfl
  | cons r rest ih =>
    intro idx b m
    simp only [scanMax, List.foldl_cons]
    by_cases hb : b < r
    · rw [if_pos hb, ih, max_eq_right (le_of_lt hb)]
    · rw [if_neg hb, ih, max_eq_left (not_lt.mp hb)]

/-- The scan's recorded index: when some element beats the seed, it is the
earliest position attaining the overall maximum; otherwise the initial value
is returned. -/
theorem scanMax_snd : ∀ (rs : List ℚ) (idx : ℕ) (b : ℚ) (m : Option ℕ),
    (b < rs.foldl max b →
      (scanMax rs idx b m).2
        = some (idx + rs.findIdx (fun r => decide (rs.foldl max b ≤ r))))
    ∧ (¬ b < rs.foldl max b → (scanMax rs idx b m).2 = m) := by
  intro rs
  induction rs with
  | nil =>
    intro idx b m
    constructor
    · intro h
      exact absurd h (lt_irrefl b)
    · intro _
      rfl
  | cons r rest ih =>
    intro idx b m
    simp only [scanMax, List.foldl_cons, List.findIdx_cons]
    by_cases hb : b < r
    · rw [if_pos hb]
      simp only [max_eq_right (le_of_lt hb)]
      constructor
      · intro _
        by_cases hov : r < rest.foldl max r
        · rw [(ih (idx + 1) r (some idx)).1 hov]
          rw [show (decide (rest.foldl max r ≤ r)) = false from by
              simp only [decide_eq_false_iff_not]
              exact not_le.mpr hov]
          simp only [Bool.cond_false]
          congr 1
          omega
        · have heq : rest.foldl max r = r :=
            le_antisymm (not_lt.mp hov) (le_foldl_max rest r)
          rw [(ih (idx + 1) r (some idx)).2 hov]
          rw [show (decide (rest.foldl max r ≤ r)) = true from by
              simp only [decide_eq_true_eq]
              rw [heq]]
          simp only [Bool.cond_true]
          simp
      · intro hcon
        exact absurd (lt_of_lt_of_le hb (le_foldl_max rest r)) hcon
    · rw [if_neg hb]
      simp only [max_eq_left (not_lt.mp hb)]
      constructor
      · intro h
        rw [(ih (idx + 1) b m).1 h]
        rw [show (decide (rest.foldl max b ≤ r)) = false from by
            simp only [decide_eq_false_iff_not]
            exact not_le.mpr (lt_of_le_of_lt (not_lt.mp hb) h)]
        simp only [Bool.cond_false]
        congr 1
        omega
      · intro h
        exact (ih (idx + 1) b m).2 h

/-- `qMax` on a nonempty list is the `max`-fold over its tail. -/
theorem qMax_cons (x : ℚ) (xs : List ℚ) : qMax (x :: xs) = xs.foldl max x := rfl

/-- The top-level scan, summarized: either some ratio is positive and the scan
returns the maximum with its earliest position, or it returns `(0, none)`. -/
theorem scanMax_top (v0 : ℚ) (rs : List ℚ) :
    scanMax (v0 :: rs) 0 0 none
      = if (0:ℚ) < qMax (v0 :: rs)
        then (qMax (v0 :: rs),
              some ((v0 :: rs).findIdx (fun r => decide (qMax (v0 :: rs) ≤ r))))
        else (0, none) := by
  have h1 := scanMax_fst (v0 :: rs) 0 0 none
  have h2a := (scanMax_snd (v0 :: rs) 0 0 none).1
  have h2b := (scanMax_snd (v0 :: rs) 0 0 none).2
  have hfold0 : (v0 :: rs).foldl max 0 = max 0 (qMax (v0 :: rs)) := by
    rw [foldl_max_cons, qMax_cons]
  by_cases h0 : (0:ℚ) < qMax (v0 :: rs)
  · rw [if_pos h0]
    have hM : (v0 :: rs).foldl max 0 = qMax (v0 :: rs) := by
      rw [hfold0]
      exact max_eq_right (le_of_lt h0)
    rw [hM] at h1
    have h2 := h2a (by rw [hM]; exact h0)
    rw [Nat.zero_add] at h2
    simp only [hM] at h2
    exact Prod.ext h1 h2
  · rw [if_neg h0]
    have hM : (v0 :: rs).foldl max 0 = 0 := by
      rw [hfold0]
      exact max_eq_left (not_lt.mp h0)
    have h2 := h2b (by rw [hM]; exact lt_irrefl 0)
    rw [hM] at h1
    exact Prod.ext h1 h2

/-- The code's clustering step agrees with the specification's step at the
threshold `1/2` actually used. -/
theorem groupStep_eq_spec (lines : List Line) (item : Token) :
    groupStep (1/2) lines item = c6SpecStep (1/2) lines item := by
  simp only [groupStep, c6SpecStep]
  cases lines with
  | nil =>
    rw [show qMax (List.map (fun ln => overlap_frac ln.box item.box) ([] : List Line)) = 0
      from rfl]
    rw [if_neg (by norm_num : ¬ (1:ℚ)/2 ≤ (0:ℚ))]
    rfl
  | cons l0 rest =>
    rw [pickBest_eq_scanMax]
    simp only [List.map_cons]
    rw [scanMax_top]
    by_cases hq : (1:ℚ)/2 ≤ qMax (overlap_frac l0.box item.box
        :: rest.map (fun ln => overlap_frac ln.box item.box))
    · have h0 : (0:ℚ) < qMax (overlap_frac l0.box item.box
          :: rest.map (fun ln => overlap_frac ln.box item.box)) :=
        lt_of_lt_of_le (by norm_num : (0:ℚ) < 1/2) hq
      rw [if_pos h0]
    · by_cases h0 : (0:ℚ) < qMax (overlap_frac l0.box item.box
          :: rest.map (fun ln => overlap_frac ln.box item.box))
      · rw [if_pos h0]
      · rw [if_neg h0]
        dsimp only
        rw [if_neg hq]
/-- C6: the clusterer processes the tokens in stable `(min_y, min_x)` order,
assigns each to the earliest existing line attaining the highest overlap
ratio when that ratio is at least `0.5` and otherwise starts a new line, and
finally sorts each line's tokens by `min_x` and the lines by
`(min_y, min_x)`. -/
theorem c6_clusterer (items : List Token) :
    group_items_into_lines items (1/2)
        = (((items.insertionSort tokLE).foldl (c6SpecStep (1/2)) []).map
            (fun ln => { ln with items := ln.items.insertionSort tokXLE })).insertionSort lineLE
      ∧ (items.insertionSort tokLE).Sorted tokLE
      ∧ (items.insertionSort tokLE).Perm items
      ∧ (group_items_into_lines items (1/2)).Sorted lineLE
      ∧ ∀ ln ∈ group_items_into_lines items (1/2), ln.items.Sorted tokXLE := by
  have hfun : groupStep (1/2) = c6SpecStep (1/2) :=
    funext fun lines => funext fun item => groupStep_eq_spec lines item
  have heq : group_items_into_lines items (1/2)
      = (((items.insertionSort tokLE).foldl (c6SpecStep (1/2)) []).map
          (fun ln => { ln with items := ln.items.insertionSort tokXLE })).insertionSort lineLE := by
    simp only [group_items_into_lines, hfun]
  refine ⟨heq, List.sorted_insertionSort tokLE items, List.perm_insertionSort tokLE items,
    ?_, ?_⟩
  · simp only [group_items_into_lines]
    exact List.sorted_insertionSort lineLE _
  · intro ln hln
    simp only [group_items_into_lines] at hln
    have h2 := (List.perm_insertionSort lineLE _).subset hln
    obtain ⟨ln0, _, hmap⟩ := List.mem_map.mp h2
    rw [← hmap]
    exact List.sorted_insertionSort tokXLE _

/-! ## C8: the date scorer -/

/-- C8: if the whitespace-normalized input matches the first canonical layout
(`day sep month sep year`), the scorer reports valid with score `1` exactly
for in-range day/month/year and `85/100` otherwise; the same for the second
layout (`year sep month sep day`) when the first fails; and when neither
grammar matches, the result is invalid with the additive partial score
(`+0.4` for a date-shaped substring, `+0.2` for a separator, `+0.2` for at
least three digit runs, `+0.2` for a four-digit run), clamped to `[0, 1]`. -/
theorem c8_date_scorer (s : Str) :
    (∀ d1 d2 d3, dateRegex1Groups (normalize_spaces s) = some (d1, d2, d3) →
      (score_date s).1 = true
        ∧ ((score_date s).2 = 1
            ↔ (1 ≤ strToNat d2 ∧ strToNat d2 ≤ 12 ∧ 1 ≤ strToNat d1 ∧ strToNat d1 ≤ 31
                ∧ 1900 ≤ strToNat d3 ∧ strToNat d3 ≤ 2100))
        ∧ ((score_date s).2 = 1 ∨ (score_date s).2 = 85/100))
    ∧ (dateRegex1Groups (normalize_spaces s) = none →
        ∀ d1 d2 d3, dateRegex2Groups (normalize_spaces s) = some (d1, d2, d3) →
          (score_date s).1 = true
            ∧ ((score_date s).2 = 1
                ↔ (1 ≤ strToNat d2 ∧ strToNat d2 ≤ 12 ∧ 1 ≤ strToNat d3 ∧ strToNat d3 ≤ 31
                    ∧ 1900 ≤ strToNat d1 ∧ strToNat d1 ≤ 2100))
            ∧ ((score_date s).2 = 1 ∨ (score_date s).2 = 85/100))
    ∧ (dateRegex1Groups (normalize_spaces s) = none →
        dateRegex2Groups (normalize_spaces s) = none →
          score_date s = (false, clamp_score
            ((if hasDateShapeSub (normalize_spaces s) then 4/10 else 0)
              + (if (normalize_spaces s).any isDateSepC then 2/10 else 0)
              + (if 3 ≤ (digitRuns (normalize_spaces s)).length then 2/10 else 0)
              + (if (digitRuns (normalize_spaces s)).any (fun n => n.length = 4)
                  then 2/10 else 0)))) := by
  refine ⟨?_, ?_, ?_⟩
  · intro d1 d2 d3 h1
    simp only [score_date, h1]
    by_cases hr : 1 ≤ strToNat d2 ∧ strToNat d2 ≤ 12 ∧ 1 ≤ strToNat d1 ∧ strToNat d1 ≤ 31
        ∧ 1900 ≤ strToNat d3 ∧ strToNat d3 ≤ 2100
    · rw [if_pos hr]
      exact ⟨rfl, ⟨fun _ => hr, fun _ => rfl⟩, Or.inl rfl⟩
    · rw [if_neg hr]
      refine ⟨rfl, ⟨fun habs => ?_, fun hr2 => absurd hr2 hr⟩, Or.inr rfl⟩
      exfalso
      have : (85/100 : ℚ) = 1 := habs
      norm_num at this
  · intro h1 d1 d2 d3 h2
    simp only [score_date, h1, h2]
    by_cases hr : 1 ≤ strToNat d2 ∧ strToNat d2 ≤ 12 ∧ 1 ≤ strToNat d3 ∧ strToNat d3 ≤ 31
        ∧ 1900 ≤ strToNat d1 ∧ strToNat d1 ≤ 2100
    · rw [if_pos hr]
      exact ⟨rfl, ⟨fun _ => hr, fun _ => rfl⟩, Or.inl rfl⟩
    · rw [if_neg hr]
      refine ⟨rfl, ⟨fun habs => ?_, fun hr2 => absurd hr2 hr⟩, Or.inr rfl⟩
      exfalso
      have : (85/100 : ℚ) = 1 := habs
      norm_num at this
  · intro h1 h2
    simp only [score_date, h1, h2]

section
attribute [local semireducible] Rat.mul Rat.inv Rat.add Rat.sub

theorem c8_date_scorer_witness :
    (dateRegex1Groups (normalize_spaces ("15/03/2024".data))
        = some ("15".data, "03".data, "2024".data)
      ∧ ((score_date ("15/03/2024".data)).1 = true
          ∧ ((score_date ("15/03/2024".data)).2 = 1
              ↔ (1 ≤ strToNat ("03".data) ∧ strToNat ("03".data) ≤ 12
                  ∧ 1 ≤ strToNat ("15".data) ∧ strToNat ("15".data) ≤ 31
                  ∧ 1900 ≤ strToNat ("2024".data) ∧ strToNat ("2024".data) ≤ 2100))
          ∧ ((score_date ("15/03/2024".data)).2 = 1
              ∨ (score_date ("15/03/2024".data)).2 = 85/100)))
      ∧ (dateRegex1Groups (normalize_spaces ("date 9 x".data)) = none
        ∧ dateRegex2Groups (normalize_spaces ("date 9 x".data)) = none
        ∧ score_date ("date 9 x".data) = (false, clamp_score
            ((if hasDateShapeSub (normalize_spaces ("date 9 x".data)) then 4/10 else 0)
              + (if (normalize_spaces ("date 9 x".data)).any isDateSepC then 2/10 else 0)
              + (if 3 ≤ (digitRuns (normalize_spaces ("date 9 x".data))).length then 2/10 else 0)
              + (if (digitRuns (normalize_spaces ("date 9 x".data))).any (fun n => n.length = 4)
                  then 2/10 else 0)))) :=
  ⟨⟨by decide, (c8_date_scorer ("15/03/2024".data)).1 _ _ _ (by decide)⟩,
    by decide, by decide,
    (c8_date_scorer ("date 9 x".data)).2.2 (by decide) (by decide)⟩

end

/-! ## C9: dedupe and final sort of the locator -/

/-- First-occurrence deduplication exactly as the specification words it: keep
each result and drop every later result with the same key. -/
def specDedupe : List EntityResult → List EntityResult
  | [] => []
  | r :: rest => r :: specDedupe (rest.filter (fun x => decide (dedupeKey x ≠ dedupeKey r)))
termination_by l => l.length
decreasing_by
  have := List.length_filter_le (fun x => decide (dedupeKey x ≠ dedupeKey r)) rest
  simp only [List.length_cons]
  omega

/-- The seen-set scan of `_dedupe_results` computes first-occurrence
deduplication of the not-yet-seen results. -/
theorem dedupeGo_eq_spec : ∀ (l : List EntityResult) (seen : List (Str × ℚ × ℚ × ℚ × ℚ)),
    dedupeGo l seen = specDedupe (l.filter (fun r => decide (dedupeKey r ∉ seen))) := by
  intro l
  induction l with
  | nil =>
    intro seen
    simp only [List.filter_nil, dedupeGo, specDedupe]
  | cons r rest ih =>
    intro seen
    simp only [dedupeGo, List.filter_cons]
    by_cases hmem : dedupeKey r ∈ seen
    · rw [if_pos hmem]
      rw [show (decide (dedupeKey r ∉ seen)) = false from by simpa using hmem]
      simp only [Bool.false_eq_true, if_false]
      exact ih seen
    · rw [if_neg hmem]
      rw [show (decide (dedupeKey r ∉ seen)) = true from by simpa using hmem]
      simp only [if_true]
      rw [specDedupe]
      congr 1
      rw [ih (dedupeKey r :: seen), List.filter_filter]
      congr 1
      apply List.filter_congr
      intro x _
      by_cases h1 : dedupeKey x = dedupeKey r <;> by_cases h2 : dedupeKey x ∈ seen <;>
        simp [h1, h2]

/-- The scan output has pairwise-distinct keys, none of them in `seen`. -/
theorem dedupeGo_pairwise : ∀ (l : List EntityResult) (seen : List (Str × ℚ × ℚ × ℚ × ℚ)),
    (dedupeGo l seen).Pairwise (fun a b => dedupeKey a ≠ dedupeKey b)
      ∧ ∀ r ∈ dedupeGo l seen, dedupeKey r ∉ seen := by
  intro l
  induction l with
  | nil =>
    intro seen
    refine ⟨List.Pairwise.nil, ?_⟩
    intro r h
    simp [dedupeGo] at h
  | cons x rest ih =>
    intro seen
    simp only [dedupeGo]
    by_cases hmem : dedupeKey x ∈ seen
    · rw [if_pos hmem]
      exact ih seen
    · rw [if_neg hmem]
      obtain ⟨hp, hm⟩ := ih (dedupeKey x :: seen)
      refine ⟨List.Pairwise.cons ?_ hp, ?_⟩
      · intro b hb hEq
        exact hm b hb (by rw [← hEq]; exact List.mem_cons_self _ _)
      · intro r hr
        rcases List.mem_cons.mp hr with h1 | h1
        · subst h1
          exact hmem
        · intro hIn
          exact hm r h1 (List.mem_cons_of_mem _ hIn)

/-- C9: the locator's output is a permutation of the first-occurrence
deduplication (by the key: normalized value plus the box rounded to one
decimal per coordinate) of the generated results, it is sorted by
`(box.min_y, box.min_x)`, and its keys are pairwise distinct. -/
theorem c9_dedupe_sort (lines : List Line) (t : EntityType) (ms : Option ℚ) (rv : Bool) :
    (locate_entities_in_lines lines t ms rv).Perm
        (specDedupe (locateRaw lines t ms rv))
      ∧ (locate_entities_in_lines lines t ms rv).Sorted resLE
      ∧ (locate_entities_in_lines lines t ms rv).Pairwise
          (fun a b => dedupeKey a ≠ dedupeKey b) := by
  have hdd : dedupe_results (locateRaw lines t ms rv)
      = specDedupe (locateRaw lines t ms rv) := by
    unfold dedupe_results
    rw [dedupeGo_eq_spec]
    congr 1
    rw [List.filter_eq_self.mpr]
    intro a _
    simp
  refine ⟨?_, ?_, ?_⟩
  · unfold locate_entities_in_lines
    exact hdd ▸ List.perm_insertionSort resLE _
  · unfold locate_entities_in_lines
    exact List.sorted_insertionSort resLE _
  · unfold locate_entities_in_lines
    have hp := (dedupeGo_pairwise (locateRaw lines t ms rv) []).1
    exact ((List.perm_insertionSort resLE _).pairwise_iff
      (fun h => Ne.symm h)).mpr hp

/-! ## C10: the clusterer partitions its input -/

theorem mem_updateAt {f : Line → Line} : ∀ (ls : List Line) (i : ℕ) (x : Line),
    x ∈ updateAt i f ls → x ∈ ls ∨ ∃ ln ∈ ls, x = f ln := by
  intro ls
  induction ls with
  | nil =>
    intro i x h
    simp [updateAt] at h
  | cons ln rest ih =>
    intro i x h
    cases i with
    | zero =>
      simp only [updateAt] at h
      rcases List.mem_cons.mp h with h1 | h1
      · exact Or.inr ⟨ln, List.mem_cons_self _ _, h1⟩
      · exact Or.inl (List.mem_cons_of_mem _ h1)
    | succ j =>
      simp only [updateAt] at h
      rcases List.mem_cons.mp h with h1 | h1
      · exact Or.inl (h1 ▸ List.mem_cons_self _ _)
      · rcases ih j x h1 with h2 | ⟨ln2, hln2, hx⟩
        · exact Or.inl (List.mem_cons_of_mem _ h2)
        · exact Or.inr ⟨ln2, List.mem_cons_of_mem _ hln2, hx⟩

theorem bind_updateAt_perm (tok : Token) : ∀ (ls : List Line) (idx : ℕ), idx < ls.length →
    ((updateAt idx (addToLine tok) ls).bind (fun ln => ln.items)).Perm
      ((ls.bind (fun ln => ln.items)) ++ [tok]) := by
  intro ls
  induction ls with
  | nil =>
    intro idx h
    simp at h
  | cons ln rest ih =>
    intro idx h
    cases idx with
    | zero =>
      simp only [updateAt, List.cons_bind]
      rw [show (addToLine tok ln).items = ln.items ++ [tok] from rfl]
      rw [List.append_assoc, List.append_assoc]
      exact List.Perm.append_left ln.items List.perm_append_comm
    | succ j =>
      simp only [updateAt, List.cons_bind]
      simp only [List.length_cons] at h
      rw [List.append_assoc]
      exact List.Perm.append_left ln.items (ih j (by omega))

theorem scanMax_snd_lt : ∀ (rs : List ℚ) (idx : ℕ) (b : ℚ) (m : Option ℕ),
    (∀ j, m = some j → j < idx) →
    ∀ j, (scanMax rs idx b m).2 = some j → j < idx + rs.length := by
  intro rs
  induction rs with
  | nil =>
    intro idx b m hm j h
    simp only [scanMax] at h
    have := hm j h
    omega
  | cons r rest ih =>
    intro idx b m hm j h
    simp only [scanMax] at h
    split at h
    · have := ih (idx + 1) r (some idx) (fun j2 hj => by injection hj with hj; omega) j h
      simp only [List.length_cons]
      omega
    · have := ih (idx + 1) b m (fun j2 hj => by have := hm j2 hj; omega) j h
      simp only [List.length_cons]
      omega

theorem pickBest_some_lt {itemBox : Box} {ls : List Line} {j : ℕ}
    (h : (pickBest itemBox ls 0 0 none).2 = some j) : j < ls.length := by
  rw [pickBest_eq_scanMax] at h
  generalize hg : ls.map (fun ln => overlap_frac ln.box itemBox) = rs at h
  have hlen : rs.length = ls.length := by rw [← hg, List.length_map]
  have := scanMax_snd_lt rs 0 0 none (fun j2 hj => by simp at hj) j h
  omega

/-- One clustering step adds exactly the new token to the multiset of placed
tokens. -/
theorem groupStep_bind_perm (thresh : ℚ) (lines : List Line) (tok : Token) :
    ((groupStep thresh lines tok).bind (fun ln => ln.items)).Perm
      ((lines.bind (fun ln => ln.items)) ++ [tok]) := by
  unfold groupStep
  cases hpb : pickBest tok.box lines 0 0 none with
  | mk best mo =>
    cases mo with
    | some idx =>
      dsimp only
      split
      · exact bind_updateAt_perm tok lines idx (pickBest_some_lt (by rw [hpb]))
      · simp only [List.append_bind, List.cons_bind, List.nil_bind, List.append_nil]
        exact List.Perm.refl _
    | none =>
      dsimp only
      simp only [List.append_bind, List.cons_bind, List.nil_bind, List.append_nil]
      exact List.Perm.refl _

theorem foldl_groupStep_bind (thresh : ℚ) : ∀ (toks : List Token) (acc : List Line),
    ((toks.foldl (groupStep thresh) acc).bind (fun ln => ln.items)).Perm
      ((acc.bind (fun ln => ln.items)) ++ toks) := by
  intro toks
  induction toks with
  | nil =>
    intro acc
    simp
  | cons tok rest ih =>
    intro acc
    simp only [List.foldl_cons]
    refine (ih (groupStep thresh acc tok)).trans ?_
    refine ((groupStep_bind_perm thresh acc tok).append_right rest).trans ?_
    rw [List.append_assoc]
    exact List.Perm.refl _

theorem line_items_ne_nil (thresh : ℚ) : ∀ (toks : List Token) (acc : List Line),
    (∀ ln ∈ acc, ln.items ≠ []) →
    ∀ ln ∈ toks.foldl (groupStep thresh) acc, ln.items ≠ [] := by
  intro toks
  induction toks with
  | nil =>
    intro acc h
    exact h
  | cons tok rest ih =>
    intro acc h
    simp only [List.foldl_cons]
    apply ih
    intro ln hln
    unfold groupStep at hln
    cases hpb : pickBest tok.box acc 0 0 none with
    | mk best mo =>
      rw [hpb] at hln
      cases mo with
      | some idx =>
        dsimp only at hln
        split at hln
        · rcases mem_updateAt acc idx ln hln with h1 | ⟨ln2, hln2, hx⟩
          · exact h ln h1
          · rw [hx, show (addToLine tok ln2).items = ln2.items ++ [tok] from rfl]
            simp
        · rcases List.mem_append.mp hln with h1 | h1
          · exact h ln h1
          · have hx : ln = { items := [tok], box := tok.box } := by simpa using h1
            rw [hx]
            simp
      | none =>
        dsimp only at hln
        rcases List.mem_append.mp hln with h1 | h1
        · exact h ln h1
        · have hx : ln = { items := [tok], box := tok.box } := by simpa using h1
          rw [hx]
          simp

theorem bind_map_sort_perm : ∀ (ls : List Line),
    ((ls.map (fun ln => { ln with items := ln.items.insertionSort tokXLE })).bind
        (fun ln => ln.items)).Perm (ls.bind (fun ln => ln.items)) := by
  intro ls
  induction ls with
  | nil => exact List.Perm.refl _
  | cons ln rest ih =>
    simp only [List.map_cons, List.cons_bind]
    exact List.Perm.append (List.perm_insertionSort tokXLE ln.items) ih

/-- C10: the lines produced by the clusterer partition the input tokens: the
concatenation of all lines' token lists is a permutation of the input, and no
line is empty. -/
theorem c10_partition (items : List Token) (thresh : ℚ) :
    ((group_items_into_lines items thresh).bind (fun ln => ln.items)).Perm items
      ∧ ∀ ln ∈ group_items_into_lines items thresh, ln.items ≠ [] := by
  constructor
  · unfold group_items_into_lines
    refine ((List.perm_insertionSort lineLE _).bind_right _).trans ?_
    refine (bind_map_sort_perm _).trans ?_
    refine (foldl_groupStep_bind thresh (items.insertionSort tokLE) []).trans ?_
    simp only [List.nil_bind, List.nil_append]
    exact List.perm_insertionSort tokLE items
  · intro ln hln
    unfold group_items_into_lines at hln
    have h2 := (List.perm_insertionSort lineLE _).subset hln
    obtain ⟨ln0, hln0, hmap⟩ := List.mem_map.mp h2
    have hno := line_items_ne_nil thresh (items.insertionSort tokLE) []
      (by intro x hx; simp at hx) ln0 hln0
    rw [← hmap]
    intro hcon
    have hc2 : ln0.items.insertionSort tokXLE = [] := hcon
    have hlen := congrArg List.length hc2
    rw [List.length_insertionSort] at hlen
    exact hno (List.length_eq_zero.mp (by simpa using hlen))

section
attribute [local semireducible] Rat.mul Rat.inv Rat.add Rat.sub

theorem c6_clusterer_witness :
    ((Line.mk [Token.mk ("ab".data) 1 (Box.mk 0 2 0 2 2)] (Box.mk 0 2 0 2 2))
        ∈ group_items_into_lines [Token.mk ("ab".data) 1 (Box.mk 0 2 0 2 2)] (1/2))
      ∧ (Line.mk [Token.mk ("ab".data) 1 (Box.mk 0 2 0 2 2)]
          (Box.mk 0 2 0 2 2)).items.Sorted tokXLE :=
  ⟨by decide,
    (c6_clusterer [Token.mk ("ab".data) 1 (Box.mk 0 2 0 2 2)]).2.2.2.2
      (Line.mk [Token.mk ("ab".data) 1 (Box.mk 0 2 0 2 2)] (Box.mk 0 2 0 2 2)) (by decide)⟩

theorem c10_partition_witness :
    ((Line.mk [Token.mk ("cd".data) 1 (Box.mk 0 2 0 3 3)] (Box.mk 0 2 0 3 3))
        ∈ group_items_into_lines [Token.mk ("cd".data) 1 (Box.mk 0 2 0 3 3)] (1/2))
      ∧ (Line.mk [Token.mk ("cd".data) 1 (Box.mk 0 2 0 3 3)] (Box.mk 0 2 0 3 3)).items ≠ [] :=
  ⟨by decide,
    (c10_partition [Token.mk ("cd".data) 1 (Box.mk 0 2 0 3 3)] (1/2)).2
      (Line.mk [Token.mk ("cd".data) 1 (Box.mk 0 2 0 3 3)] (Box.mk 0 2 0 3 3)) (by decide)⟩

end

end SDV


